import Mathlib

/-!
# aws-sam-parser-go: the resolver walk and the tag-normalising decoder

A shallow embedding of `parser/resolve.go` (the `Resolver` interface, `Context`,
`ResolveAll` and the unexported `resolveAll`) together with the resolvers of
`parser/resolve_test.go` (`refResolver`, `ifResolver`, `chainResolver`,
`errResolver`).

Modelling decisions.

* A Go `any` holding a decoded template is the inductive type `Value`.  A Go
  `map[string]any` is kept as the list of its entries in strictly ascending key
  order (`Value.wf`), so that two equal Go maps are equal Lean terms.  Functions
  on maps assume, but do not require, that their inputs are in that form.
* A Go `(any, error)` pair is `Value × Option Error`; the Go `nil` value is
  `Value.null`.
* `for k, v := range typed` over a map visits the entries in an order Go leaves
  unspecified.  The order is a parameter of the walk, `RangeOrder`: any function
  that returns a permutation of the entries.
* Go recursion has no termination guarantee (an always-handling resolver with
  `MaxDepth <= 0` recurses forever), so the walk takes a fuel argument bounding
  the height of the call stack; `none` means that the fuel ran out.
* A resolver is a pure function of the context and the value it is offered.
* `MaxDepth` and the depth are Go `int` values, 64 bits wide: they are
  integers between `minInt` and `maxInt`, and `depth+1` wraps around
  (`nextDepth`).
* `parser/decode.go` is described by the specification only; the decoder below
  follows that description, with the text-level parsers as parameters.
* `Decode` of `parser/decoder.go` hands the tree to `mapstructure`; that binder
  is a parameter, and the target it writes to is passed in and returned.
-/

namespace SamParser

/-! ## Values -/

/-- A decoded template value: what a Go `any` holds after `DecodeYAML`.  A
`float64` is carried by its bit pattern; the walk never inspects it. -/
inductive Value where
  | null
  | bool (b : Bool)
  | int (i : Int)
  | float (bits : Nat)
  | str (s : String)
  | list (items : List Value)
  | map (entries : List (String × Value))
  deriving Repr, Inhabited

/-- A Go `error` value, identified by its message. -/
abbrev Error := String

/-- A Go `(any, error)` result pair. -/
abbrev Outcome := Value × Option Error

/-! ## Map keys and the canonical entry order -/

/-- Strict lexicographic order on lists of code points. -/
def lexLt : List Nat → List Nat → Bool
  | _, [] => false
  | [], _ :: _ => true
  | a :: as, b :: bs => decide (a < b) || (decide (a = b) && lexLt as bs)

/-- The code points of a key. -/
def keyCode (s : String) : List Nat := s.data.map Char.toNat

/-- Strict order on map keys, used only to fix the stored order of entries. -/
def keyLt (a b : String) : Bool := lexLt (keyCode a) (keyCode b)

/-- Go `m[k] = v` on a map stored in ascending key order. -/
def mapSet : List (String × Value) → String → Value → List (String × Value)
  | [], k, v => [(k, v)]
  | (k0, v0) :: rest, k, v =>
    if keyLt k k0 then (k, v) :: (k0, v0) :: rest
    else if k = k0 then (k, v) :: rest
    else (k0, v0) :: mapSet rest k v

/-- Go `v, ok := m[k]`. -/
def mapGet : List (String × Value) → String → Option Value
  | [], _ => none
  | (k0, v0) :: rest, k => if k = k0 then some v0 else mapGet rest k

/-- The keys of a list of entries are strictly ascending. -/
def sortedKeys : List (String × Value) → Bool
  | [] => true
  | [_] => true
  | (k0, _) :: (k1, v1) :: rest => keyLt k0 k1 && sortedKeys ((k1, v1) :: rest)

mutual
/-- Every mapping inside the value is stored in strictly ascending key order,
that is, the value represents a tree of Go maps (unique keys), slices and
scalars. -/
def Value.wf : Value → Bool
  | .list xs => Value.wfList xs
  | .map kvs => sortedKeys kvs && Value.wfEntries kvs
  | _ => true
/-- Well-formedness of every element of a slice. -/
def Value.wfList : List Value → Bool
  | [] => true
  | x :: xs => Value.wf x && Value.wfList xs
/-- Well-formedness of every value of a mapping. -/
def Value.wfEntries : List (String × Value) → Bool
  | [] => true
  | (_, x) :: xs => Value.wf x && Value.wfEntries xs
end

mutual
/-- Nesting height of a value: the number of container levels below its root. -/
def Value.height : Value → Nat
  | .list xs => Value.heightList xs + 1
  | .map kvs => Value.heightEntries kvs + 1
  | _ => 0
/-- Largest height among the elements of a slice. -/
def Value.heightList : List Value → Nat
  | [] => 0
  | x :: xs => max (Value.height x) (Value.heightList xs)
/-- Largest height among the values of a mapping. -/
def Value.heightEntries : List (String × Value) → Nat
  | [] => 0
  | (_, x) :: xs => max (Value.height x) (Value.heightEntries xs)
end

/-! ## `parser/resolve.go` -/

/-- `Context` controls resolver behaviour during traversal. -/
structure Context where
  MaxDepth : Int
  deriving Repr

/-- The `Resolver` interface: `Resolve(ctx, value) (out, handled, err)`.  The
context pointer may be nil. -/
abbrev Resolver := Option Context → Value → Value × Bool × Option Error

/-- The order in which `range` yields the entries of a map: some permutation
of them. -/
structure RangeOrder where
  visit : List (String × Value) → List (String × Value)
  perm : ∀ kvs, (visit kvs).Perm kvs

/-- Visit the entries in ascending key order. -/
def RangeOrder.ascending : RangeOrder := ⟨id, fun _ => List.Perm.refl _⟩

/-- Visit the entries in descending key order. -/
def RangeOrder.descending : RangeOrder := ⟨List.reverse, fun kvs => List.reverse_perm kvs⟩

/-- The largest value of a Go `int` (64 bits). -/
def maxInt : Int := 9223372036854775807

/-- The smallest value of a Go `int` (64 bits). -/
def minInt : Int := -9223372036854775808

/-- Go `depth+1` on `int`: the sum wraps around in two's complement, so the
successor of `maxInt` is `minInt`. -/
def nextDepth (depth : Int) : Int :=
  (depth + 1 + 9223372036854775808) % 18446744073709551616 - 9223372036854775808

/-- The guard `ctx != nil && ctx.MaxDepth > 0 && depth > ctx.MaxDepth`. -/
def depthExceeded (ctx : Option Context) (depth : Int) : Bool :=
  match ctx with
  | none => false
  | some c => decide (c.MaxDepth > 0) && decide (depth > c.MaxDepth)

/-- The loop `for k, v := range typed` of the `map[string]any` case: `rec` is
the recursive call at `depth+1`, `out` the map built so far. -/
def rangeMap (rec : Value → Option Outcome) :
    List (String × Value) → List (String × Value) → Option Outcome
  | [], out => some (.map out, none)
  | (k, v) :: rest, out =>
    match rec v with
    | none => none
    | some (_, some err) => some (.null, some err)
    | some (resolved, none) => rangeMap rec rest (mapSet out k resolved)

/-- The loop `for i, v := range typed` of the `[]any` case: `i` is the index
of the next element, `out` the slice of `len(typed)` elements being filled. -/
def rangeList (rec : Value → Option Outcome) :
    List Value → Nat → List Value → Option Outcome
  | [], _, out => some (.list out, none)
  | v :: rest, i, out =>
    match rec v with
    | none => none
    | some (_, some err) => some (.null, some err)
    | some (resolved, none) => rangeList rec rest (i + 1) (out.set i resolved)

/-- The type switch at the end of `resolveAll`. -/
def resolveChildren (ord : RangeOrder) (rec : Value → Option Outcome) (value : Value) :
    Option Outcome :=
  match value with
  | .map typed => rangeMap rec (ord.visit typed) []
  | .list typed => rangeList rec typed 0 (List.replicate typed.length .null)
  | _ => some (value, none)

/-- The unexported `resolveAll(ctx, value, resolver, depth)`.  The first
argument fixes the map iteration order, the second bounds the call stack. -/
def resolveAll (ord : RangeOrder) : Nat → Option Context → Value → Option Resolver → Int →
    Option Outcome
  | 0, _, _, _, _ => none
  | fuel + 1, ctx, value, resolver, depth =>
    if depthExceeded ctx depth then some (value, none)
    else
      match resolver with
      | some r =>
        match r ctx value with
        | (_, _, some err) => some (.null, some err)
        | (out, true, none) => resolveAll ord fuel ctx out resolver (nextDepth depth)
        | (_, false, none) =>
          resolveChildren ord (fun v => resolveAll ord fuel ctx v resolver (nextDepth depth)) value
      | none =>
        resolveChildren ord (fun v => resolveAll ord fuel ctx v resolver (nextDepth depth)) value

/-- `ResolveAll` walks the value tree and applies the resolver when provided. -/
def ResolveAll (ord : RangeOrder) (fuel : Nat) (ctx : Option Context) (value : Value)
    (resolver : Option Resolver) : Option Outcome :=
  resolveAll ord fuel ctx value resolver 0

/-! ## The walk with a record of the resolver invocations

The same walk, returning in addition the values that were handed to the
resolver, in the order of the calls. -/

/-- The values offered to the resolver so far, and the outcome. -/
abbrev Traced := List Value × Option Outcome

/-- The map loop, recording resolver invocations. -/
def rangeMapT (rec : Value → Traced) :
    List (String × Value) → List (String × Value) → Traced
  | [], out => ([], some (.map out, none))
  | (k, v) :: rest, out =>
    match rec v with
    | (tr, none) => (tr, none)
    | (tr, some (_, some err)) => (tr, some (.null, some err))
    | (tr, some (resolved, none)) =>
      (tr ++ (rangeMapT rec rest (mapSet out k resolved)).1,
        (rangeMapT rec rest (mapSet out k resolved)).2)

/-- The slice loop, recording resolver invocations. -/
def rangeListT (rec : Value → Traced) : List Value → Nat → List Value → Traced
  | [], _, out => ([], some (.list out, none))
  | v :: rest, i, out =>
    match rec v with
    | (tr, none) => (tr, none)
    | (tr, some (_, some err)) => (tr, some (.null, some err))
    | (tr, some (resolved, none)) =>
      (tr ++ (rangeListT rec rest (i + 1) (out.set i resolved)).1,
        (rangeListT rec rest (i + 1) (out.set i resolved)).2)

/-- The type switch, recording resolver invocations. -/
def resolveChildrenT (ord : RangeOrder) (rec : Value → Traced) (value : Value) : Traced :=
  match value with
  | .map typed => rangeMapT rec (ord.visit typed) []
  | .list typed => rangeListT rec typed 0 (List.replicate typed.length .null)
  | _ => ([], some (value, none))

/-- The walk `resolveAll`, recording resolver invocations. -/
def resolveAllT (ord : RangeOrder) : Nat → Option Context → Value → Option Resolver → Int →
    Traced
  | 0, _, _, _, _ => ([], none)
  | fuel + 1, ctx, value, resolver, depth =>
    if depthExceeded ctx depth then ([], some (value, none))
    else
      match resolver with
      | some r =>
        match r ctx value with
        | (_, _, some err) => ([value], some (.null, some err))
        | (out, true, none) =>
          (value :: (resolveAllT ord fuel ctx out resolver (nextDepth depth)).1,
            (resolveAllT ord fuel ctx out resolver (nextDepth depth)).2)
        | (_, false, none) =>
          (value :: (resolveChildrenT ord
              (fun v => resolveAllT ord fuel ctx v resolver (nextDepth depth)) value).1,
            (resolveChildrenT ord
              (fun v => resolveAllT ord fuel ctx v resolver (nextDepth depth)) value).2)
      | none =>
        resolveChildrenT ord (fun v => resolveAllT ord fuel ctx v resolver (nextDepth depth)) value

/-! ## The resolvers of `parser/resolve_test.go` -/

mutual
/-- Go `fmt.Sprint` on a value; `ff` formats a `float64` from its bit pattern. -/
def fmtSprint (ff : Nat → String) : Value → String
  | .null => "<nil>"
  | .bool b => if b then "true" else "false"
  | .int i => if i < 0 then "-" ++ Nat.repr i.natAbs else Nat.repr i.natAbs
  | .float bits => ff bits
  | .str s => s
  | .list xs => "[" ++ fmtSprintList ff xs ++ "]"
  | .map kvs => "map[" ++ fmtSprintEntries ff kvs ++ "]"
/-- The elements of a slice, separated by blanks. -/
def fmtSprintList (ff : Nat → String) : List Value → String
  | [] => ""
  | [x] => fmtSprint ff x
  | x :: y :: rest => fmtSprint ff x ++ " " ++ fmtSprintList ff (y :: rest)
/-- The entries of a map as `key:value`, separated by blanks. -/
def fmtSprintEntries (ff : Nat → String) : List (String × Value) → String
  | [] => ""
  | [(k, x)] => k ++ ":" ++ fmtSprint ff x
  | (k, x) :: e :: rest => k ++ ":" ++ fmtSprint ff x ++ " " ++ fmtSprintEntries ff (e :: rest)
end

/-- Lookup in a Go `map[string]string`. -/
def lookupString : List (String × String) → String → Option String
  | [], _ => none
  | (k0, v0) :: rest, k => if k = k0 then some v0 else lookupString rest k

/-- `refResolver{values}.Resolve`. -/
def refResolver (ff : Nat → String) (values : List (String × String)) : Resolver :=
  fun _ value =>
    match value with
    | .map m =>
      if m.length ≠ 1 then (value, false, none)
      else
        match mapGet m "Ref" with
        | none => (value, false, none)
        | some ref =>
          match lookupString values (fmtSprint ff ref) with
          | none => (value, false, none)
          | some resolved => (.str resolved, true, none)
    | _ => (value, false, none)

/-- `ifResolver{flag}.Resolve`. -/
def ifResolver (flag : Bool) : Resolver :=
  fun _ value =>
    match value with
    | .map m =>
      if m.length ≠ 1 then (value, false, none)
      else
        match mapGet m "Fn::If" with
        | none => (value, false, none)
        | some (.list [_, a1, a2]) => if flag then (a1, true, none) else (a2, true, none)
        | some _ => (value, false, none)
    | _ => (value, false, none)

/-- `chainResolver.Resolve`. -/
def chainResolver : List Resolver → Resolver
  | [], _, value => (value, false, none)
  | r :: rest, ctx, value =>
    match r ctx value with
    | (_, _, some err) => (.null, true, some err)
    | (out, true, none) => (out, true, none)
    | (_, false, none) => chainResolver rest ctx value

/-- `errResolver{err}.Resolve`. -/
def errResolver (err : Error) : Resolver :=
  fun _ _ => (.null, true, some err)

/-! ## The tag-normalising decoder

`parser/decode.go` (`DecodeYAML`, `decodeNode`, `decodeScalar`, `asString`) is
exercised by `parser/decode_test.go`; the definitions below follow the
description of the decoder in the specification, section 4.1. -/

/-- The `Kind` of a `yaml.Node`, as far as the decoder distinguishes it. -/
inductive Kind where
  | document
  | sequence
  | mapping
  | scalar
  deriving Repr, DecidableEq

/-- A `yaml.Node` as built in `decode_test.go`: `Kind`, `Tag`, `Value` and
`Content`.  The content of a mapping node lists its keys and values
alternately. -/
inductive Node where
  | mk (kind : Kind) (tag : String) (value : String) (content : List Node)
  deriving Repr

/-- The text-level functions scalar decoding relies on: the integer, float
and boolean parsers, and the formatting of a float. -/
structure ScalarRules where
  parseInt : String → Option Int
  parseFloat : String → Option Nat
  parseBool : String → Option Bool
  formatFloat : Nat → String

/-- Modelled from the spec: the intrinsic-shorthand normalisation table of
`parser/decode.go`, custom tag to canonical key. -/
def intrinsicTags : List (String × String) :=
  [("!Ref", "Ref"), ("!Condition", "Condition"), ("!Sub", "Fn::Sub"),
   ("!GetAtt", "Fn::GetAtt"), ("!ImportValue", "Fn::ImportValue"), ("!Join", "Fn::Join"),
   ("!Equals", "Fn::Equals"), ("!And", "Fn::And"), ("!Or", "Fn::Or"), ("!Not", "Fn::Not"),
   ("!Select", "Fn::Select"), ("!Split", "Fn::Split"), ("!If", "Fn::If")]

/-- Modelled from the spec: `decodeScalar` of `parser/decode.go`, scalar
decoding with fallback to the raw text; a tag that names no scalar type leaves
the raw text as a string. -/
def decodeScalar (P : ScalarRules) (tag value : String) : Value :=
  if tag = "!!int" then
    match P.parseInt value with
    | some i => .int i
    | none => .str value
  else if tag = "!!float" then
    match P.parseFloat value with
    | some f => .float f
    | none => .str value
  else if tag = "!!bool" then
    match P.parseBool value with
    | some b => .bool b
    | none => .str value
  else if tag = "!!null" then .null
  else .str value

/-- Modelled from the spec: `asString` of `parser/decode.go`, the rendering of
a decoded key; nil renders to the empty string, a scalar to its text. -/
def asString (P : ScalarRules) : Value → String
  | .null => ""
  | v => fmtSprint P.formatFloat v

mutual
/-- Modelled from the spec: `decodeNode` of `parser/decode.go`.  A document
unwraps to its child; any other node is decoded by its kind, and wrapped into a
single-entry map under the canonical key when its tag is in the shorthand
table. -/
def decodeNode (P : ScalarRules) : Node → Value
  | .mk .document _ _ content => decodeDocument P content
  | .mk .sequence tag _ content =>
    match lookupString intrinsicTags tag with
    | some key => .map [(key, .list (decodeSequence P content))]
    | none => .list (decodeSequence P content)
  | .mk .mapping tag _ content =>
    match lookupString intrinsicTags tag with
    | some key => .map [(key, .map (decodeMapping P content []))]
    | none => .map (decodeMapping P content [])
  | .mk .scalar tag value _ =>
    match lookupString intrinsicTags tag with
    | some key => .map [(key, decodeScalar P tag value)]
    | none => decodeScalar P tag value
/-- Modelled from the spec: the child of a document node. -/
def decodeDocument (P : ScalarRules) : List Node → Value
  | [] => .null
  | n :: _ => decodeNode P n
/-- Modelled from the spec: the elements of a sequence node, in order. -/
def decodeSequence (P : ScalarRules) : List Node → List Value
  | [] => []
  | n :: rest => decodeNode P n :: decodeSequence P rest
/-- Modelled from the spec: the entries of a mapping node; a key that occurs
again overwrites the earlier entry. -/
def decodeMapping (P : ScalarRules) : List Node → List (String × Value) →
    List (String × Value)
  | k :: v :: rest, out =>
    decodeMapping P rest (mapSet out (asString P (decodeNode P k)) (decodeNode P v))
  | _, out => out
end

/-- The outcome of the markup parser that `DecodeYAML` delegates to
(`yaml.Unmarshal` into a `yaml.Node`): a syntax error, or the document node. -/
abbrev MarkupParser := String → Except Error Node

/-- Modelled from the spec: the root of a parsed document, the single child of
the document wrapper; a document without a child has no root. -/
def documentRoot : Node → Option Node
  | .mk .document _ _ [] => none
  | .mk .document _ _ (root :: _) => some root
  | n => some n

/-- Modelled from the spec: the error of `DecodeYAML` on empty markup. -/
def errEmptyMarkup : Error := "yaml: empty document"

/-- Modelled from the spec: the error of `DecodeYAML` on a root that is not a
mapping. -/
def errRootNotMapping : Error := "yaml: document root is not a mapping"

/-- Modelled from the spec: `DecodeYAML` of `parser/decode.go`.  It fails when
the markup is empty, when the parser rejects it, and when the document root is
not a mapping; otherwise it decodes the root. -/
def DecodeYAML (P : ScalarRules) (parse : MarkupParser) (content : String) : Outcome :=
  if content = "" then (.null, some errEmptyMarkup)
  else
    match parse content with
    | .error err => (.null, some err)
    | .ok doc =>
      match documentRoot doc with
      | none => (.null, some errEmptyMarkup)
      | some (.mk .mapping tag value children) =>
        (decodeNode P (.mk .mapping tag value children), none)
      | some _ => (.null, some errRootNotMapping)

/-! ## `parser/decoder.go` -/

/-- `DecodeOptions` controls optional resolver behaviour when decoding. -/
structure DecodeOptions where
  Resolver : Option Resolver
  ResolverContext : Option Context
  WeaklyTyped : Bool

/-- The binder `Decode` hands the tree to (`mapstructure`), for a target of
type `α`: `newDecoder weaklyTyped output` is the error, if any, of
`mapstructure.NewDecoder` on the configuration with `Result: output` and
`WeaklyTypedInput: weaklyTyped`; `decode weaklyTyped resolved output` is the
target after `decoder.Decode(resolved)` and the error it returns. -/
structure Binder (α : Type) where
  newDecoder : Bool → α → Option Error
  decode : Bool → Value → α → α × Option Error

/-- `Decode` maps input into output, optionally resolving values first.  The
result is the target after the call and the error returned. -/
def Decode {α : Type} (B : Binder α) (ord : RangeOrder) (fuel : Nat) (input : Value)
    (output : α) (opts : Option DecodeOptions) : Option (α × Option Error) :=
  let resolution : Option Outcome :=
    match opts with
    | some o =>
      match o.Resolver with
      | some r => ResolveAll ord fuel o.ResolverContext input (some r)
      | none => some (input, none)
    | none => some (input, none)
  match resolution with
  | none => none
  | some (_, some err) => some (output, some err)
  | some (resolved, none) =>
    let weaklyTyped :=
      match opts with
      | some o => o.WeaklyTyped
      | none => true
    match B.newDecoder weaklyTyped output with
    | some err => some (output, some err)
    | none => some (B.decode weaklyTyped resolved output)

/-- A binder whose target records what it was handed: the weak-typing flag and
the tree. -/
def recordingBinder : Binder (Option (Bool × Value)) :=
  ⟨fun _ _ => none, fun weaklyTyped resolved _ => (some (weaklyTyped, resolved), none)⟩

/-- A resolver that fails on every string, with the string as its error, and
leaves every other value unhandled. -/
def failOnString : Resolver :=
  fun _ value =>
    match value with
    | .str s => (.null, false, some s)
    | _ => (value, false, none)

/-! ## Auxiliary notions used in the statements and proofs -/

/-- The entries are stored in strictly ascending key order. -/
def KeySorted (l : List (String × Value)) : Prop :=
  l.Pairwise (fun a b => keyLt a.1 b.1 = true)

/-- Assigning the entries of `p` one after the other, as the map loop does. -/
def assignAll (out : List (String × Value)) (p : List (String × Value)) :
    List (String × Value) :=
  p.foldl (fun m e => mapSet m e.1 e.2) out

/-- The value a successful recursive call returned for `v`. -/
def valOf (rec : Value → Option Outcome) (v : Value) : Value :=
  match rec v with
  | some (x, none) => x
  | _ => .null

/-- The entry the map loop stores for the entry `e`. -/
def resolvedEntry (rec : Value → Option Outcome) (e : String × Value) : String × Value :=
  (e.1, valOf rec e.2)

/-- The body of `resolveAll`, with `rec` standing for the recursive calls at
`depth+1`. -/
def resolveStep (ord : RangeOrder) (rec : Value → Option Outcome) (ctx : Option Context)
    (value : Value) (resolver : Option Resolver) (depth : Int) : Option Outcome :=
  if depthExceeded ctx depth then some (value, none)
  else
    match resolver with
    | some r =>
      match r ctx value with
      | (_, _, some err) => some (.null, some err)
      | (out, true, none) => rec out
      | (_, false, none) => resolveChildren ord rec value
    | none => resolveChildren ord rec value

/-- The error a resolver returns for a value under a context. -/
def resolverErr (resolver : Option Resolver) (ctx : Option Context) (x : Value) : Option Error :=
  match resolver with
  | some r => (r ctx x).2.2
  | none => none

/-- What a record says about an outcome: an invocation that failed makes the
walk return its error with a nil value; an error returned comes from a recorded
invocation; and no invocation but the last one failed. -/
def TraceOk (errOf : Value → Option Error) (t : Traced) : Prop :=
  (∀ x ∈ t.1, ∀ e, errOf x = some e → t.2 = some (.null, some e)) ∧
  (∀ o e, t.2 = some (o, some e) → ∃ x ∈ t.1, errOf x = some e) ∧
  (∀ x ∈ t.1.dropLast, errOf x = none)

/-- Two outcomes agree up to the choice of the error: both fail or neither
does, and if neither does they are equal. -/
def SameUpToError (a b : Outcome) : Prop :=
  (a.2 = none ↔ b.2 = none) ∧ (a.2 = none → a = b)

/-- A resolver that handles every value by returning the value itself. -/
def selfResolver : Resolver := fun _ value => (value, true, none)

/-! ## The key order is a strict total order -/

theorem lexLt_irrefl : ∀ a : List Nat, lexLt a a = false
  | [] => rfl
  | a :: as => by simp [lexLt, lexLt_irrefl as]

theorem lexLt_trans : ∀ a b c : List Nat, lexLt a b = true → lexLt b c = true → lexLt a c = true
  | _, [], _ => by
    intro h
    cases ‹List Nat› <;> simp [lexLt] at h
  | _, _ :: _, [] => by
    intro _ h
    simp [lexLt] at h
  | [], _ :: _, _ :: _ => by simp [lexLt]
  | a :: as, b :: bs, c :: cs => by
    intro h1 h2
    simp only [lexLt, Bool.or_eq_true, Bool.and_eq_true, decide_eq_true_eq] at h1 h2 ⊢
    rcases h1 with h1 | ⟨h1, h1r⟩
    · rcases h2 with h2 | ⟨h2, _⟩
      · left; omega
      · left; omega
    · rcases h2 with h2 | ⟨h2, h2r⟩
      · left; omega
      · right; exact ⟨by omega, lexLt_trans as bs cs h1r h2r⟩

theorem lexLt_connected : ∀ a b : List Nat, lexLt a b = false → lexLt b a = false → a = b
  | [], [] => fun _ _ => rfl
  | [], _ :: _ => by simp [lexLt]
  | _ :: _, [] => by simp [lexLt]
  | a :: as, b :: bs => by
    intro h1 h2
    simp only [lexLt, Bool.or_eq_false_iff, Bool.and_eq_false_imp, decide_eq_false_iff_not,
      decide_eq_true_eq] at h1 h2
    have hab : a = b := by omega
    subst hab
    rw [lexLt_connected as bs (h1.2 rfl) (h2.2 rfl)]

theorem keyCode_injective {a b : String} (h : keyCode a = keyCode b) : a = b := by
  apply String.ext
  have hinj : Function.Injective Char.toNat := by
    intro c d hcd
    apply Char.ext
    apply UInt32.ext
    exact hcd
  exact List.map_injective_iff.mpr hinj h

theorem keyLt_irrefl (a : String) : keyLt a a = false := lexLt_irrefl _

theorem keyLt_trans {a b c : String} (h1 : keyLt a b = true) (h2 : keyLt b c = true) :
    keyLt a c = true := lexLt_trans _ _ _ h1 h2

theorem keyLt_connected {a b : String} (h1 : keyLt a b = false) (h2 : keyLt b a = false) :
    a = b := keyCode_injective (lexLt_connected _ _ h1 h2)

theorem keyLt_asymm {a b : String} (h1 : keyLt a b = true) : keyLt b a = false := by
  cases h : keyLt b a
  · rfl
  · have := keyLt_trans h1 h
    rw [keyLt_irrefl] at this
    cases this

theorem sortedKeys_iff : ∀ l : List (String × Value), sortedKeys l = true ↔ KeySorted l
  | [] => by simp [sortedKeys, KeySorted]
  | [_] => by simp [sortedKeys, KeySorted]
  | (k0, v0) :: (k1, v1) :: rest => by
    have ih := sortedKeys_iff ((k1, v1) :: rest)
    simp only [sortedKeys, Bool.and_eq_true, ih, KeySorted, List.pairwise_cons]
    constructor
    · rintro ⟨h01, h1, hr⟩
      refine ⟨?_, h1, hr⟩
      intro e he
      rcases List.mem_cons.mp he with rfl | he
      · exact h01
      · exact keyLt_trans h01 (h1 e he)
    · rintro ⟨h0, h1, hr⟩
      exact ⟨h0 _ (List.mem_cons_self _ _), h1, hr⟩

theorem KeySorted.nodup_keys {l : List (String × Value)} (h : KeySorted l) :
    (l.map Prod.fst).Nodup := by
  unfold KeySorted at h
  rw [List.Nodup, List.pairwise_map]
  refine h.imp ?_
  intro a b hab heq
  rw [heq, keyLt_irrefl] at hab
  cases hab

/-! ## Map assignment keeps the canonical order -/

theorem mapSet_mem {k : String} {v : Value} :
    ∀ {m : List (String × Value)} {e : String × Value},
      e ∈ mapSet m k v → e = (k, v) ∨ e ∈ m
  | [], e => by simp [mapSet]
  | (k0, v0) :: rest, e => by
    unfold mapSet
    split
    · intro h
      rcases List.mem_cons.mp h with h | h
      · exact Or.inl h
      · exact Or.inr h
    · split
      · intro h
        rcases List.mem_cons.mp h with h | h
        · exact Or.inl h
        · exact Or.inr (List.mem_cons_of_mem _ h)
      · intro h
        rcases List.mem_cons.mp h with h | h
        · exact Or.inr (h ▸ List.mem_cons_self _ _)
        · rcases mapSet_mem h with h | h
          · exact Or.inl h
          · exact Or.inr (List.mem_cons_of_mem _ h)

theorem mapSet_sorted {k : String} {v : Value} :
    ∀ {m : List (String × Value)}, KeySorted m → KeySorted (mapSet m k v)
  | [], _ => by simp [mapSet, KeySorted]
  | (k0, v0) :: rest, h => by
    unfold KeySorted at h
    rw [List.pairwise_cons] at h
    unfold mapSet
    split
    · rename_i hlt
      refine List.Pairwise.cons ?_ (List.Pairwise.cons h.1 h.2)
      intro e he
      rcases List.mem_cons.mp he with rfl | he
      · exact hlt
      · exact keyLt_trans hlt (h.1 e he)
    · split
      · rename_i heq
        subst heq
        exact List.Pairwise.cons h.1 h.2
      · rename_i hnlt hne
        refine List.Pairwise.cons ?_ (mapSet_sorted h.2)
        intro e he
        rcases mapSet_mem he with rfl | he
        · cases hlt : keyLt k0 k
          · exact absurd (keyLt_connected (by simpa using hnlt) hlt) hne
          · rfl
        · exact h.1 e he

theorem mapSet_perm {k : String} {v : Value} :
    ∀ {m : List (String × Value)}, k ∉ m.map Prod.fst → (mapSet m k v).Perm ((k, v) :: m)
  | [], _ => by simp [mapSet]
  | (k0, v0) :: rest, h => by
    have hne : k ≠ k0 := fun heq => h (by simp [heq])
    have hrest : k ∉ rest.map Prod.fst := fun hmem => h (by simp at hmem ⊢; exact Or.inr hmem)
    unfold mapSet
    split
    · exact List.Perm.refl _
    · exact ((mapSet_perm hrest).cons (k0, v0)).trans (List.Perm.swap _ _ _)

theorem assignAll_spec : ∀ (p out : List (String × Value)), KeySorted out →
    ((p ++ out).map Prod.fst).Nodup →
    KeySorted (assignAll out p) ∧ (assignAll out p).Perm (p ++ out)
  | [], out, hs, _ => ⟨hs, List.Perm.refl _⟩
  | (k, v) :: rest, out, hs, hnd => by
    have hk : k ∉ out.map Prod.fst := by
      intro hmem
      simp only [List.cons_append, List.map_cons, List.nodup_cons, List.map_append,
        List.mem_append] at hnd
      exact hnd.1 (Or.inr hmem)
    have hp := mapSet_perm (v := v) hk
    have hnd2 : ((rest ++ mapSet out k v).map Prod.fst).Nodup := by
      have h1 : (rest ++ mapSet out k v).Perm ((k, v) :: rest ++ out) :=
        ((List.Perm.refl rest).append hp).trans List.perm_middle
      exact (h1.map Prod.fst).nodup_iff.mpr hnd
    have ih := assignAll_spec rest (mapSet out k v) (mapSet_sorted hs) hnd2
    refine ⟨ih.1, ih.2.trans ?_⟩
    exact ((List.Perm.refl rest).append hp).trans List.perm_middle

/-- Two lists of entries in canonical order with the same entries are equal. -/
theorem KeySorted.eq_of_perm {l1 l2 : List (String × Value)} (h1 : KeySorted l1)
    (h2 : KeySorted l2) (hp : l1.Perm l2) : l1 = l2 := by
  haveI : IsAntisymm (String × Value) (fun a b => keyLt a.1 b.1 = true) :=
    ⟨fun a b hab hba => by rw [keyLt_asymm hab] at hba; cases hba⟩
  exact List.eq_of_perm_of_sorted hp h1 h2

/-- Filling an empty map from any permutation of a canonical entry list gives
that list back. -/
theorem assignAll_eq_of_perm {p q : List (String × Value)} (hq : KeySorted q)
    (hp : p.Perm q) : assignAll [] p = q := by
  have hnd : ((p ++ []).map Prod.fst).Nodup := by
    rw [List.append_nil]
    exact (hp.map Prod.fst).nodup_iff.mpr hq.nodup_keys
  have h := assignAll_spec p [] (by simp [KeySorted]) hnd
  rw [List.append_nil] at h
  exact KeySorted.eq_of_perm h.1 hq (h.2.trans hp)

/-! ## What the two loops compute -/

theorem valOf_eq (rec : Value → Option Outcome) {v x : Value} (h : rec v = some (x, none)) :
    valOf rec v = x := by
  simp [valOf, h]

theorem rangeMap_ok (rec : Value → Option Outcome) :
    ∀ (p out : List (String × Value)), (∀ e ∈ p, ∃ x, rec e.2 = some (x, none)) →
      rangeMap rec p out = some (.map (assignAll out (p.map (resolvedEntry rec))), none)
  | [], out, _ => rfl
  | (k, v) :: rest, out, h => by
    obtain ⟨x, hx⟩ := h (k, v) (List.mem_cons_self _ _)
    have hx2 : rec v = some (x, none) := hx
    have ih := rangeMap_ok rec rest (mapSet out k x)
      (fun e he => h e (List.mem_cons_of_mem _ he))
    simp only [rangeMap, hx2, ih, List.map_cons, assignAll, List.foldl_cons, resolvedEntry,
      valOf_eq rec hx2]

theorem rangeMap_inv (rec : Value → Option Outcome) :
    ∀ (p out : List (String × Value)) (o : Outcome), rangeMap rec p out = some o →
      (o.2 = none ∧ ∀ e ∈ p, ∃ x, rec e.2 = some (x, none)) ∨
      (∃ err, o = (.null, some err) ∧ ∃ e ∈ p, ∃ x, rec e.2 = some (x, some err))
  | [], out, o, h => by
    simp only [rangeMap, Option.some.injEq] at h
    subst h
    exact Or.inl ⟨rfl, by simp⟩
  | (k, v) :: rest, out, o, h => by
    unfold rangeMap at h
    split at h
    · cases h
    · rename_i x err hx
      simp only [Option.some.injEq] at h
      subst h
      exact Or.inr ⟨err, rfl, (k, v), List.mem_cons_self _ _, x, hx⟩
    · rename_i x hx
      rcases rangeMap_inv rec rest _ o h with ⟨h1, h2⟩ | ⟨err, h1, e, he, h2⟩
      · refine Or.inl ⟨h1, ?_⟩
        intro e he
        rcases List.mem_cons.mp he with rfl | he
        · exact ⟨x, hx⟩
        · exact h2 e he
      · exact Or.inr ⟨err, h1, e, List.mem_cons_of_mem _ he, h2⟩

theorem set_after_done (done : List Value) (r : Value) (n : Nat) :
    (done ++ List.replicate (n + 1) Value.null).set done.length r
      = (done ++ [r]) ++ List.replicate n Value.null := by
  induction done with
  | nil => simp [List.replicate_succ]
  | cons d ds ih => simpa using ih

theorem rangeList_ok (rec : Value → Option Outcome) :
    ∀ (xs done : List Value), (∀ x ∈ xs, ∃ y, rec x = some (y, none)) →
      rangeList rec xs done.length (done ++ List.replicate xs.length .null)
        = some (.list (done ++ xs.map (valOf rec)), none)
  | [], done, _ => by simp [rangeList]
  | v :: rest, done, h => by
    obtain ⟨y, hy⟩ := h v (List.mem_cons_self _ _)
    have ih := rangeList_ok rec rest (done ++ [y]) (fun x hx => h x (List.mem_cons_of_mem _ hx))
    rw [List.length_append, List.length_singleton] at ih
    simp only [List.append_assoc, List.singleton_append] at ih
    simp only [rangeList, hy, List.length_cons, set_after_done, List.map_cons, valOf_eq rec hy,
      List.append_assoc, List.singleton_append]
    exact ih

/-- The slice loop stops at the first element whose resolution fails. -/
theorem rangeList_err (rec : Value → Option Outcome) :
    ∀ (pre : List Value) (i : Nat) (out : List Value) (x : Value) (post : List Value)
      (o : Value) (err : Error),
      (∀ y ∈ pre, ∃ z, rec y = some (z, none)) → rec x = some (o, some err) →
      rangeList rec (pre ++ x :: post) i out = some (.null, some err)
  | [], i, out, x, post, o, err, _, hx => by simp [rangeList, hx]
  | y :: pre, i, out, x, post, o, err, h, hx => by
    obtain ⟨z, hz⟩ := h y (List.mem_cons_self _ _)
    have ih := rangeList_err rec pre (i + 1) (out.set i z) x post o err
      (fun w hw => h w (List.mem_cons_of_mem _ hw)) hx
    simp only [List.cons_append, rangeList, hz]
    exact ih

theorem rangeList_inv (rec : Value → Option Outcome) :
    ∀ (xs : List Value) (i : Nat) (out : List Value) (o : Outcome),
      rangeList rec xs i out = some o →
      (o.2 = none ∧ ∀ x ∈ xs, ∃ y, rec x = some (y, none)) ∨
      (∃ err, o = (.null, some err) ∧ ∃ x ∈ xs, ∃ y, rec x = some (y, some err))
  | [], i, out, o, h => by
    simp only [rangeList, Option.some.injEq] at h
    subst h
    exact Or.inl ⟨rfl, by simp⟩
  | v :: rest, i, out, o, h => by
    unfold rangeList at h
    split at h
    · cases h
    · rename_i x err hx
      simp only [Option.some.injEq] at h
      subst h
      exact Or.inr ⟨err, rfl, v, List.mem_cons_self _ _, x, hx⟩
    · rename_i x hx
      rcases rangeList_inv rec rest _ _ o h with ⟨h1, h2⟩ | ⟨err, h1, e, he, h2⟩
      · refine Or.inl ⟨h1, ?_⟩
        intro e he
        rcases List.mem_cons.mp he with rfl | he
        · exact ⟨x, hx⟩
        · exact h2 e he
      · exact Or.inr ⟨err, h1, e, List.mem_cons_of_mem _ he, h2⟩

theorem keySorted_map_resolved (rec : Value → Option Outcome) {kvs : List (String × Value)}
    (h : KeySorted kvs) : KeySorted (kvs.map (resolvedEntry rec)) := by
  unfold KeySorted at h ⊢
  rw [List.pairwise_map]
  exact h.imp (fun hab => hab)

/-- On a map in canonical form whose children all resolve, the type switch
returns the map of the resolved children under the same keys, whatever the
visiting order. -/
theorem resolveChildren_map_ok (ord : RangeOrder) (rec : Value → Option Outcome)
    {kvs : List (String × Value)} (hs : KeySorted kvs)
    (h : ∀ e ∈ kvs, ∃ x, rec e.2 = some (x, none)) :
    resolveChildren ord rec (.map kvs) = some (.map (kvs.map (resolvedEntry rec)), none) := by
  have hv : ∀ e ∈ ord.visit kvs, ∃ x, rec e.2 = some (x, none) :=
    fun e he => h e ((ord.perm kvs).mem_iff.mp he)
  simp only [resolveChildren, rangeMap_ok rec _ _ hv]
  rw [assignAll_eq_of_perm (keySorted_map_resolved rec hs) ((ord.perm kvs).map _)]

theorem resolveChildren_list_ok (ord : RangeOrder) (rec : Value → Option Outcome)
    {xs : List Value} (h : ∀ x ∈ xs, ∃ y, rec x = some (y, none)) :
    resolveChildren ord rec (.list xs) = some (.list (xs.map (valOf rec)), none) := by
  have := rangeList_ok rec xs [] h
  simpa [resolveChildren] using this

/-! ## Children of a well-formed value -/

theorem wf_of_mem_entries : ∀ {kvs : List (String × Value)} {e : String × Value},
    Value.wfEntries kvs = true → e ∈ kvs → e.2.wf = true
  | [], _, _, h => by cases h
  | (k, v) :: rest, e, hw, h => by
    simp only [Value.wfEntries, Bool.and_eq_true] at hw
    rcases List.mem_cons.mp h with rfl | h
    · exact hw.1
    · exact wf_of_mem_entries hw.2 h

theorem wf_of_mem_list : ∀ {xs : List Value} {x : Value},
    Value.wfList xs = true → x ∈ xs → x.wf = true
  | [], _, _, h => by cases h
  | v :: rest, x, hw, h => by
    simp only [Value.wfList, Bool.and_eq_true] at hw
    rcases List.mem_cons.mp h with rfl | h
    · exact hw.1
    · exact wf_of_mem_list hw.2 h

theorem height_of_mem_entries : ∀ {kvs : List (String × Value)} {e : String × Value},
    e ∈ kvs → e.2.height ≤ Value.heightEntries kvs
  | [], _, h => by cases h
  | (k, v) :: rest, e, h => by
    simp only [Value.heightEntries]
    rcases List.mem_cons.mp h with rfl | h
    · exact Nat.le_max_left _ _
    · exact Nat.le_trans (height_of_mem_entries h) (Nat.le_max_right _ _)

theorem height_of_mem_list : ∀ {xs : List Value} {x : Value},
    x ∈ xs → x.height ≤ Value.heightList xs
  | [], _, h => by cases h
  | v :: rest, x, h => by
    simp only [Value.heightList]
    rcases List.mem_cons.mp h with rfl | h
    · exact Nat.le_max_left _ _
    · exact Nat.le_trans (height_of_mem_list h) (Nat.le_max_right _ _)

/-- Without a resolver the walk rebuilds the value it is given. -/
theorem resolveAll_nil_resolver (ord : RangeOrder) :
    ∀ (fuel : Nat) (ctx : Option Context) (v : Value) (depth : Int),
      v.wf = true → v.height < fuel → resolveAll ord fuel ctx v none depth = some (v, none)
  | 0, _, _, _, _, h => by cases h
  | fuel + 1, ctx, v, depth, hw, hh => by
    unfold resolveAll
    split
    · rfl
    · cases v with
      | map kvs =>
        simp only [Value.wf, Bool.and_eq_true] at hw
        simp only [Value.height] at hh
        have hrec : ∀ e ∈ kvs, resolveAll ord fuel ctx e.2 none (nextDepth depth) = some (e.2, none) :=
          fun e he => resolveAll_nil_resolver ord fuel ctx e.2 (nextDepth depth)
            (wf_of_mem_entries hw.2 he) (by have := height_of_mem_entries he; omega)
        rw [resolveChildren_map_ok ord _ ((sortedKeys_iff kvs).mp hw.1)
          (fun e he => ⟨e.2, hrec e he⟩)]
        have hid : kvs.map (resolvedEntry
            (fun v => resolveAll ord fuel ctx v none (nextDepth depth))) = kvs := by
          conv => rhs; rw [← List.map_id kvs]
          apply List.map_congr_left
          intro e he
          have hv := valOf_eq (fun v => resolveAll ord fuel ctx v none (nextDepth depth)) (hrec e he)
          simp [resolvedEntry, hv]
        rw [hid]
      | list xs =>
        simp only [Value.wf] at hw
        simp only [Value.height] at hh
        have hrec : ∀ x ∈ xs, resolveAll ord fuel ctx x none (nextDepth depth) = some (x, none) :=
          fun x hx => resolveAll_nil_resolver ord fuel ctx x (nextDepth depth)
            (wf_of_mem_list hw hx) (by have := height_of_mem_list hx; omega)
        rw [resolveChildren_list_ok ord _ (fun x hx => ⟨x, hrec x hx⟩)]
        have hid : xs.map (valOf (fun v => resolveAll ord fuel ctx v none (nextDepth depth))) = xs := by
          conv => rhs; rw [← List.map_id xs]
          apply List.map_congr_left
          intro x hx
          have hv := valOf_eq (fun v => resolveAll ord fuel ctx v none (nextDepth depth)) (hrec x hx)
          simp [hv]
        rw [hid]
      | null => rfl
      | bool b => rfl
      | int i => rfl
      | float f => rfl
      | str s => rfl

/-- A map with a single entry is visited in the only possible order. -/
theorem visit_singleton (ord : RangeOrder) (e : String × Value) : ord.visit [e] = [e] :=
  List.perm_singleton.mp (ord.perm [e])

/-! ## The wrapping successor of a depth -/

theorem nextDepth_eq {depth : Int} (hmin : minInt ≤ depth) (hmax : depth < maxInt) :
    nextDepth depth = depth + 1 := by
  unfold nextDepth
  unfold minInt at hmin
  unfold maxInt at hmax
  omega

theorem nextDepth_le_maxInt (depth : Int) : nextDepth depth ≤ maxInt := by
  unfold nextDepth maxInt
  omega

theorem minInt_le_nextDepth (depth : Int) : minInt ≤ nextDepth depth := by
  unfold nextDepth minInt
  omega

/-! ## Unlimited depth, and the stack bound under a positive `MaxDepth` -/

theorem depthExceeded_unlimited {ctx : Option Context}
    (h : ∀ c, ctx = some c → c.MaxDepth ≤ 0) (depth : Int) : depthExceeded ctx depth = false := by
  cases ctx with
  | none => rfl
  | some c =>
    have := h c rfl
    simp only [depthExceeded, Bool.and_eq_false_imp, decide_eq_true_eq, decide_eq_false_iff_not]
    intro hpos
    omega

/-- Under unlimited depth the walk does not look at the depth, and it looks at
the context only through the resolver. -/
theorem resolveAll_unlimited_congr (ord : RangeOrder) :
    ∀ (fuel : Nat) (ctx1 ctx2 : Option Context) (v : Value) (resolver : Option Resolver)
      (k1 k2 : Int), (∀ c, ctx1 = some c → c.MaxDepth ≤ 0) →
      (∀ c, ctx2 = some c → c.MaxDepth ≤ 0) →
      (∀ r, resolver = some r → ∀ x, r ctx1 x = r ctx2 x) →
      resolveAll ord fuel ctx1 v resolver k1 = resolveAll ord fuel ctx2 v resolver k2
  | 0, _, _, _, _, _, _, _, _, _ => rfl
  | fuel + 1, ctx1, ctx2, v, resolver, k1, k2, h1, h2, hr => by
    have ih := fun w j1 j2 => resolveAll_unlimited_congr ord fuel ctx1 ctx2 w resolver j1 j2 h1 h2 hr
    have hfun : (fun w => resolveAll ord fuel ctx1 w resolver (nextDepth k1))
        = (fun w => resolveAll ord fuel ctx2 w resolver (nextDepth k2)) :=
      funext (fun w => ih w _ _)
    unfold resolveAll
    rw [depthExceeded_unlimited h1, depthExceeded_unlimited h2]
    cases resolver with
    | none => simp only [hfun, Bool.false_eq_true, if_false]
    | some r =>
      simp only [Bool.false_eq_true, if_false, hr r rfl v, hfun]

theorem rangeMap_isSome (rec : Value → Option Outcome) (h : ∀ v, (rec v).isSome = true) :
    ∀ (p out : List (String × Value)), (rangeMap rec p out).isSome = true
  | [], _ => rfl
  | (k, v) :: rest, out => by
    unfold rangeMap
    have hv := h v
    split
    · rename_i hn
      rw [hn] at hv
      cases hv
    · rfl
    · exact rangeMap_isSome rec h rest _

theorem rangeList_isSome (rec : Value → Option Outcome) (h : ∀ v, (rec v).isSome = true) :
    ∀ (xs : List Value) (i : Nat) (out : List Value), (rangeList rec xs i out).isSome = true
  | [], _, _ => rfl
  | v :: rest, i, out => by
    unfold rangeList
    have hv := h v
    split
    · rename_i hn
      rw [hn] at hv
      cases hv
    · rfl
    · exact rangeList_isSome rec h rest _ _

theorem resolveChildren_isSome (ord : RangeOrder) (rec : Value → Option Outcome)
    (h : ∀ v, (rec v).isSome = true) (value : Value) :
    (resolveChildren ord rec value).isSome = true := by
  cases value with
  | map kvs => exact rangeMap_isSome rec h _ _
  | list xs => exact rangeList_isSome rec h _ _ _
  | null => rfl
  | bool b => rfl
  | int i => rfl
  | float f => rfl
  | str s => rfl

/-- With `0 < MaxDepth = d < maxInt` a call at depth `k` needs a stack of at
most `d + 2 - k` frames (and at least one). -/
theorem resolveAll_isSome (ord : RangeOrder) (d : Int) (hd : 0 < d) (hmax : d < maxInt)
    (resolver : Option Resolver) :
    ∀ (fuel : Nat) (v : Value) (depth : Int), minInt ≤ depth → (d + 2 - depth).toNat ≤ fuel →
      1 ≤ fuel → (resolveAll ord fuel (some ⟨d⟩) v resolver depth).isSome = true
  | 0, _, _, _, _, h => by omega
  | fuel + 1, v, depth, hmin, hf, _ => by
    unfold resolveAll
    split
    · rfl
    · rename_i hx
      have hle : depth ≤ d := by
        simp only [depthExceeded, hd, decide_True, Bool.true_and, decide_eq_true_eq] at hx
        omega
      have hn : nextDepth depth = depth + 1 := nextDepth_eq hmin (by omega)
      have ih := fun w => resolveAll_isSome ord d hd hmax resolver fuel w (nextDepth depth)
        (minInt_le_nextDepth depth) (by rw [hn]; omega) (by omega)
      cases resolver with
      | none => exact resolveChildren_isSome ord _ ih v
      | some r =>
        simp only
        split
        · rfl
        · exact ih _
        · exact resolveChildren_isSome ord _ ih v

/-- With `MaxDepth = maxInt` the guard is never taken at a depth that is a
Go `int`. -/
theorem depthExceeded_maxInt {depth : Int} (h : depth ≤ maxInt) :
    depthExceeded (some ⟨maxInt⟩) depth = false := by
  simp only [depthExceeded, Bool.and_eq_false_imp, decide_eq_true_eq, decide_eq_false_iff_not]
  intro _
  omega

/-- With `MaxDepth = maxInt` a resolver that handles every value exhausts any
stack, and is consulted once per frame. -/
theorem resolveAllT_maxInt_diverges (ord : RangeOrder) (r : Resolver)
    (hr : ∀ x, ∃ o, r (some ⟨maxInt⟩) x = (o, true, none)) :
    ∀ (fuel : Nat) (v : Value) (depth : Int), depth ≤ maxInt →
      (resolveAllT ord fuel (some ⟨maxInt⟩) v (some r) depth).2 = none ∧
      (resolveAllT ord fuel (some ⟨maxInt⟩) v (some r) depth).1.length = fuel
  | 0, _, _, _ => ⟨rfl, rfl⟩
  | fuel + 1, v, depth, h => by
    obtain ⟨o, ho⟩ := hr v
    have ih := resolveAllT_maxInt_diverges ord r hr fuel o (nextDepth depth)
      (nextDepth_le_maxInt depth)
    simp only [resolveAllT, depthExceeded_maxInt h, Bool.false_eq_true, if_false, ho,
      List.length_cons, ih.1, ih.2, and_self]

/-- With unlimited depth the always-handling resolver exhausts any stack. -/
theorem resolveAll_selfResolver_diverges (ord : RangeOrder) :
    ∀ (fuel : Nat) (ctx : Option Context) (v : Value) (depth : Int),
      (∀ c, ctx = some c → c.MaxDepth ≤ 0) →
      resolveAll ord fuel ctx v (some selfResolver) depth = none
  | 0, _, _, _, _ => rfl
  | fuel + 1, ctx, v, depth, h => by
    unfold resolveAll
    rw [depthExceeded_unlimited h]
    simp only [Bool.false_eq_true, if_false, selfResolver]
    exact resolveAll_selfResolver_diverges ord fuel ctx v (nextDepth depth) h

/-! ## The guard at depths 0 and 1 -/

theorem depthExceeded_zero (ctx : Option Context) : depthExceeded ctx 0 = false := by
  cases ctx with
  | none => rfl
  | some c =>
    simp only [depthExceeded, Bool.and_eq_false_imp, decide_eq_true_eq, decide_eq_false_iff_not]
    intro h
    omega

theorem depthExceeded_one (ctx : Option Context) : depthExceeded ctx 1 = false := by
  cases ctx with
  | none => rfl
  | some c =>
    simp only [depthExceeded, Bool.and_eq_false_imp, decide_eq_true_eq, decide_eq_false_iff_not]
    intro h
    omega

/-- A value within the depth budget that the resolver does not handle (or that
is walked without a resolver) goes to the type switch. -/
theorem resolveAll_unhandled (ord : RangeOrder) (fuel : Nat) (ctx : Option Context) (v : Value)
    (resolver : Option Resolver) (depth : Int) (hd : depthExceeded ctx depth = false)
    (hr : ∀ r, resolver = some r → ∃ o, r ctx v = (o, false, none)) :
    resolveAll ord (fuel + 1) ctx v resolver depth
      = resolveChildren ord (fun w => resolveAll ord fuel ctx w resolver (nextDepth depth)) v := by
  cases resolver with
  | none => simp only [resolveAll, hd, Bool.false_eq_true, if_false]
  | some r =>
    obtain ⟨o, ho⟩ := hr r rfl
    simp only [resolveAll, hd, Bool.false_eq_true, if_false, ho]

/-! ## The recorded walk agrees with the walk, and its record explains errors -/

theorem rangeMapT_snd (recT : Value → Traced) (rec : Value → Option Outcome)
    (h : ∀ v, (recT v).2 = rec v) :
    ∀ (p out : List (String × Value)), (rangeMapT recT p out).2 = rangeMap rec p out
  | [], _ => rfl
  | (k, v) :: rest, out => by
    unfold rangeMapT rangeMap
    rw [← h v]
    rcases recT v with ⟨tr, _ | ⟨x, _ | err⟩⟩
    · rfl
    · exact rangeMapT_snd recT rec h rest _
    · rfl

theorem rangeListT_snd (recT : Value → Traced) (rec : Value → Option Outcome)
    (h : ∀ v, (recT v).2 = rec v) :
    ∀ (xs : List Value) (i : Nat) (out : List Value),
      (rangeListT recT xs i out).2 = rangeList rec xs i out
  | [], _, _ => rfl
  | v :: rest, i, out => by
    unfold rangeListT rangeList
    rw [← h v]
    rcases recT v with ⟨tr, _ | ⟨x, _ | err⟩⟩
    · rfl
    · exact rangeListT_snd recT rec h rest _ _
    · rfl

theorem resolveChildrenT_snd (ord : RangeOrder) (recT : Value → Traced)
    (rec : Value → Option Outcome) (h : ∀ v, (recT v).2 = rec v) (value : Value) :
    (resolveChildrenT ord recT value).2 = resolveChildren ord rec value := by
  cases value with
  | map kvs => exact rangeMapT_snd recT rec h _ _
  | list xs => exact rangeListT_snd recT rec h _ _ _
  | null => rfl
  | bool b => rfl
  | int i => rfl
  | float f => rfl
  | str s => rfl

/-- Recording the invocations does not change the outcome. -/
theorem resolveAllT_snd (ord : RangeOrder) :
    ∀ (fuel : Nat) (ctx : Option Context) (v : Value) (resolver : Option Resolver) (depth : Int),
      (resolveAllT ord fuel ctx v resolver depth).2 = resolveAll ord fuel ctx v resolver depth
  | 0, _, _, _, _ => rfl
  | fuel + 1, ctx, v, resolver, depth => by
    have ih := fun w => resolveAllT_snd ord fuel ctx w resolver (nextDepth depth)
    have hch := resolveChildrenT_snd ord _ _ ih v
    simp only [resolveAllT, resolveAll]
    split
    · rfl
    · cases resolver with
      | none => exact hch
      | some r =>
        simp only
        rcases r ctx v with ⟨out, handled, err⟩
        cases handled with
        | true =>
          cases err with
          | some e => rfl
          | none => exact ih out
        | false =>
          cases err with
          | some e => rfl
          | none => exact hch

theorem TraceOk.no_error_of_ok {errOf : Value → Option Error} {tr : List Value} {x : Value}
    (h : TraceOk errOf (tr, some (x, none))) : ∀ y ∈ tr, errOf y = none := by
  intro y hy
  cases hye : errOf y with
  | none => rfl
  | some e =>
    have := h.1 y hy e hye
    simp at this

theorem TraceOk.no_error_of_none {errOf : Value → Option Error} {tr : List Value}
    (h : TraceOk errOf (tr, none)) : ∀ y ∈ tr, errOf y = none := by
  intro y hy
  cases hye : errOf y with
  | none => rfl
  | some e =>
    have := h.1 y hy e hye
    simp at this

theorem TraceOk.append {errOf : Value → Option Error} {tr : List Value} {x : Value}
    {t : Traced} (h1 : TraceOk errOf (tr, some (x, none))) (h2 : TraceOk errOf t) :
    TraceOk errOf (tr ++ t.1, t.2) := by
  have hpre := h1.no_error_of_ok
  refine ⟨?_, ?_, ?_⟩
  · intro y hy e hye
    rcases List.mem_append.mp hy with hy | hy
    · rw [hpre y hy] at hye
      cases hye
    · exact h2.1 y hy e hye
  · intro o e ho
    obtain ⟨y, hy, hye⟩ := h2.2.1 o e ho
    exact ⟨y, List.mem_append.mpr (Or.inr hy), hye⟩
  · intro y hy
    by_cases hnil : t.1 = []
    · simp only [hnil, List.append_nil] at hy
      exact hpre y (List.mem_of_mem_dropLast hy)
    · simp only [List.dropLast_append_of_ne_nil _ hnil] at hy
      rcases List.mem_append.mp hy with hy | hy
      · exact hpre y hy
      · exact h2.2.2 y hy

theorem TraceOk.cons {errOf : Value → Option Error} {v : Value} {t : Traced}
    (hv : errOf v = none) (h : TraceOk errOf t) : TraceOk errOf (v :: t.1, t.2) := by
  have h1 : TraceOk errOf ([v], some (Value.null, none)) := by
    refine ⟨?_, ?_, ?_⟩
    · intro y hy e hye
      rw [List.mem_singleton.mp hy, hv] at hye
      cases hye
    · intro o e ho
      simp at ho
    · intro y hy
      simp at hy
  exact TraceOk.append h1 h

theorem traceOk_nil_ok (errOf : Value → Option Error) (x : Value) :
    TraceOk errOf ([], some (x, none)) := by
  refine ⟨?_, ?_, ?_⟩
  · intro y hy
    cases hy
  · intro o e ho
    simp at ho
  · intro y hy
    simp at hy

theorem traceOk_nil_none (errOf : Value → Option Error) : TraceOk errOf ([], none) := by
  refine ⟨?_, ?_, ?_⟩
  · intro y hy
    cases hy
  · intro o e ho
    cases ho
  · intro y hy
    simp at hy

theorem traceOk_single_fail (errOf : Value → Option Error) (v : Value) (e : Error)
    (hv : errOf v = some e) : TraceOk errOf ([v], some (.null, some e)) := by
  refine ⟨?_, ?_, ?_⟩
  · intro y hy e2 hye
    rw [List.mem_singleton.mp hy, hv] at hye
    cases hye
    rfl
  · intro o e2 ho
    simp only [Option.some.injEq, Prod.mk.injEq] at ho
    exact ⟨v, List.mem_singleton.mpr rfl, by rw [hv, ho.2]⟩
  · intro y hy
    simp at hy

theorem traceOk_fail (errOf : Value → Option Error) (tr : List Value) (x : Value) (e : Error)
    (h : TraceOk errOf (tr, some (x, some e))) : TraceOk errOf (tr, some (.null, some e)) := by
  obtain ⟨y, hy, hye⟩ := h.2.1 x e rfl
  have hx := h.1 y hy e hye
  simp only [Option.some.injEq, Prod.mk.injEq, and_true] at hx
  rw [← hx]
  exact h

theorem rangeMapT_traceOk (errOf : Value → Option Error) (recT : Value → Traced)
    (h : ∀ v, TraceOk errOf (recT v)) :
    ∀ (p out : List (String × Value)), TraceOk errOf (rangeMapT recT p out)
  | [], out => traceOk_nil_ok errOf _
  | (k, v) :: rest, out => by
    have hv := h v
    unfold rangeMapT
    rcases hT : recT v with ⟨tr, _ | ⟨x, _ | err⟩⟩
    · rw [hT] at hv
      exact hv
    · rw [hT] at hv
      exact TraceOk.append hv (rangeMapT_traceOk errOf recT h rest _)
    · rw [hT] at hv
      exact traceOk_fail errOf tr x err hv

theorem rangeListT_traceOk (errOf : Value → Option Error) (recT : Value → Traced)
    (h : ∀ v, TraceOk errOf (recT v)) :
    ∀ (xs : List Value) (i : Nat) (out : List Value), TraceOk errOf (rangeListT recT xs i out)
  | [], _, out => traceOk_nil_ok errOf _
  | v :: rest, i, out => by
    have hv := h v
    unfold rangeListT
    rcases hT : recT v with ⟨tr, _ | ⟨x, _ | err⟩⟩
    · rw [hT] at hv
      exact hv
    · rw [hT] at hv
      exact TraceOk.append hv (rangeListT_traceOk errOf recT h rest _ _)
    · rw [hT] at hv
      exact traceOk_fail errOf tr x err hv

theorem resolveChildrenT_traceOk (ord : RangeOrder) (errOf : Value → Option Error)
    (recT : Value → Traced) (h : ∀ v, TraceOk errOf (recT v)) (value : Value) :
    TraceOk errOf (resolveChildrenT ord recT value) := by
  cases value with
  | map kvs => exact rangeMapT_traceOk errOf recT h _ _
  | list xs => exact rangeListT_traceOk errOf recT h _ _ _
  | null => exact traceOk_nil_ok errOf _
  | bool b => exact traceOk_nil_ok errOf _
  | int i => exact traceOk_nil_ok errOf _
  | float f => exact traceOk_nil_ok errOf _
  | str s => exact traceOk_nil_ok errOf _

theorem resolveAllT_traceOk (ord : RangeOrder) :
    ∀ (fuel : Nat) (ctx : Option Context) (v : Value) (resolver : Option Resolver) (depth : Int),
      TraceOk (resolverErr resolver ctx) (resolveAllT ord fuel ctx v resolver depth)
  | 0, _, _, _, _ => traceOk_nil_none _
  | fuel + 1, ctx, v, resolver, depth => by
    have ih := fun w => resolveAllT_traceOk ord fuel ctx w resolver (nextDepth depth)
    have hch := resolveChildrenT_traceOk ord _ _ ih v
    simp only [resolveAllT]
    split
    · exact traceOk_nil_ok _ _
    · cases resolver with
      | none => exact hch
      | some r =>
        simp only
        rcases hr : r ctx v with ⟨out, handled, err⟩
        cases err with
        | some e =>
          have hgoal : TraceOk (resolverErr (some r) ctx) ([v], some (Value.null, some e)) :=
            traceOk_single_fail _ v e (by simp [resolverErr, hr])
          cases handled <;> exact hgoal
        | none =>
          have hv : resolverErr (some r) ctx v = none := by simp [resolverErr, hr]
          cases handled with
          | true => exact TraceOk.cons hv (ih out)
          | false => exact TraceOk.cons hv hch

/-! ## One call of the walk, as a function of its recursive calls -/

theorem resolveAll_succ (ord : RangeOrder) (fuel : Nat) (ctx : Option Context) (v : Value)
    (resolver : Option Resolver) (depth : Int) :
    resolveAll ord (fuel + 1) ctx v resolver depth
      = resolveStep ord (fun w => resolveAll ord fuel ctx w resolver (nextDepth depth)) ctx v
          resolver depth := by
  cases resolver <;> rfl

/-! ## More fuel does not change an outcome -/

theorem rangeMap_mono {rec1 rec2 : Value → Option Outcome}
    (hm : ∀ w o, rec1 w = some o → rec2 w = some o) :
    ∀ (p out : List (String × Value)) (o : Outcome),
      rangeMap rec1 p out = some o → rangeMap rec2 p out = some o
  | [], _, _, h => h
  | (k, v) :: rest, out, o, h => by
    unfold rangeMap at h ⊢
    rcases h1 : rec1 v with _ | ⟨x, _ | err⟩
    · rw [h1] at h
      cases h
    · rw [h1] at h
      rw [hm v _ h1]
      exact rangeMap_mono hm rest _ o h
    · rw [h1] at h
      rw [hm v _ h1]
      exact h

theorem rangeList_mono {rec1 rec2 : Value → Option Outcome}
    (hm : ∀ w o, rec1 w = some o → rec2 w = some o) :
    ∀ (xs : List Value) (i : Nat) (out : List Value) (o : Outcome),
      rangeList rec1 xs i out = some o → rangeList rec2 xs i out = some o
  | [], _, _, _, h => h
  | v :: rest, i, out, o, h => by
    unfold rangeList at h ⊢
    rcases h1 : rec1 v with _ | ⟨x, _ | err⟩
    · rw [h1] at h
      cases h
    · rw [h1] at h
      rw [hm v _ h1]
      exact rangeList_mono hm rest _ _ o h
    · rw [h1] at h
      rw [hm v _ h1]
      exact h

theorem resolveChildren_mono (ord : RangeOrder) {rec1 rec2 : Value → Option Outcome}
    (hm : ∀ w o, rec1 w = some o → rec2 w = some o) (v : Value) (o : Outcome)
    (h : resolveChildren ord rec1 v = some o) : resolveChildren ord rec2 v = some o := by
  cases v with
  | map kvs => exact rangeMap_mono hm _ _ o h
  | list xs => exact rangeList_mono hm _ _ _ o h
  | null => exact h
  | bool b => exact h
  | int i => exact h
  | float f => exact h
  | str s => exact h

theorem resolveStep_mono (ord : RangeOrder) {rec1 rec2 : Value → Option Outcome}
    (hm : ∀ w o, rec1 w = some o → rec2 w = some o) (ctx : Option Context) (v : Value)
    (resolver : Option Resolver) (depth : Int) (o : Outcome)
    (h : resolveStep ord rec1 ctx v resolver depth = some o) :
    resolveStep ord rec2 ctx v resolver depth = some o := by
  unfold resolveStep at h ⊢
  split
  · rename_i hx
    rw [if_pos hx] at h
    exact h
  · rename_i hx
    rw [if_neg hx] at h
    cases resolver with
    | none => exact resolveChildren_mono ord hm v o h
    | some r =>
      simp only at h ⊢
      generalize r ctx v = res at h ⊢
      rcases res with ⟨out, handled, err⟩
      cases handled with
      | true =>
        cases err with
        | some e => exact h
        | none => exact hm out o h
      | false =>
        cases err with
        | some e => exact h
        | none => exact resolveChildren_mono ord hm v o h

theorem resolveAll_mono_succ (ord : RangeOrder) (ctx : Option Context)
    (resolver : Option Resolver) :
    ∀ (fuel : Nat) (v : Value) (depth : Int) (o : Outcome),
      resolveAll ord fuel ctx v resolver depth = some o →
      resolveAll ord (fuel + 1) ctx v resolver depth = some o
  | 0, _, _, _, h => by cases h
  | fuel + 1, v, depth, o, h => by
    rw [resolveAll_succ] at h ⊢
    exact resolveStep_mono ord
      (fun w o2 => resolveAll_mono_succ ord ctx resolver fuel w (nextDepth depth) o2) ctx v resolver
      depth o h

/-- An outcome reached on some stack is reached on every higher stack. -/
theorem resolveAll_mono (ord : RangeOrder) (ctx : Option Context) (resolver : Option Resolver)
    (v : Value) (depth : Int) (o : Outcome) (fuel : Nat)
    (h : resolveAll ord fuel ctx v resolver depth = some o) :
    ∀ fuel2, fuel ≤ fuel2 → resolveAll ord fuel2 ctx v resolver depth = some o := by
  intro fuel2 hle
  induction hle with
  | refl => exact h
  | step _ ih => exact resolveAll_mono_succ ord ctx resolver _ v depth o ih

/-! ## The visiting order and the outcome -/

theorem sameUpToError_fail (x y : Value) (e1 e2 : Error) :
    SameUpToError (x, some e1) (y, some e2) :=
  ⟨⟨fun h => (nomatch h), fun h => (nomatch h)⟩, fun h => (nomatch h)⟩

theorem sameUpToError_refl (a : Outcome) : SameUpToError a a := ⟨Iff.rfl, fun _ => rfl⟩

theorem resolveChildren_order (ord1 ord2 : RangeOrder) (rec1 rec2 : Value → Option Outcome)
    (v : Value) (hwf : v.wf = true)
    (hrec : ∀ w, w.wf = true → ∀ a b, rec1 w = some a → rec2 w = some b → SameUpToError a b)
    (o1 o2 : Outcome) (h1 : resolveChildren ord1 rec1 v = some o1)
    (h2 : resolveChildren ord2 rec2 v = some o2) : SameUpToError o1 o2 := by
  cases v with
  | map kvs =>
    simp only [Value.wf, Bool.and_eq_true] at hwf
    have hs := (sortedKeys_iff kvs).mp hwf.1
    rcases rangeMap_inv rec1 _ _ o1 h1 with ⟨_, ha⟩ | ⟨e1, he1, x1, hx1, y1, hy1⟩
    · rcases rangeMap_inv rec2 _ _ o2 h2 with ⟨_, hb⟩ | ⟨e2, he2, x2, hx2, y2, hy2⟩
      · have ha2 : ∀ e ∈ kvs, ∃ x, rec1 e.2 = some (x, none) :=
          fun e he => ha e ((ord1.perm kvs).mem_iff.mpr he)
        have hb2 : ∀ e ∈ kvs, ∃ x, rec2 e.2 = some (x, none) :=
          fun e he => hb e ((ord2.perm kvs).mem_iff.mpr he)
        rw [resolveChildren_map_ok ord1 rec1 hs ha2] at h1
        rw [resolveChildren_map_ok ord2 rec2 hs hb2] at h2
        have hsame : kvs.map (resolvedEntry rec1) = kvs.map (resolvedEntry rec2) := by
          apply List.map_congr_left
          intro e he
          obtain ⟨x, hx⟩ := ha2 e he
          obtain ⟨y, hy⟩ := hb2 e he
          have := (hrec e.2 (wf_of_mem_entries hwf.2 he) _ _ hx hy).2 rfl
          simp only [Prod.mk.injEq, and_true] at this
          simp only [resolvedEntry, valOf_eq rec1 hx, valOf_eq rec2 hy, this]
        rw [hsame] at h1
        rw [h1] at h2
        cases h2
        exact sameUpToError_refl _
      · have hx2k := (ord2.perm kvs).mem_iff.mp hx2
        obtain ⟨z, hz⟩ := ha x2 ((ord1.perm kvs).mem_iff.mpr hx2k)
        have := (hrec x2.2 (wf_of_mem_entries hwf.2 hx2k) _ _ hz hy2).1.mp rfl
        cases this
    · rcases rangeMap_inv rec2 _ _ o2 h2 with ⟨_, hb⟩ | ⟨e2, he2, x2, hx2, y2, hy2⟩
      · have hx1k := (ord1.perm kvs).mem_iff.mp hx1
        obtain ⟨z, hz⟩ := hb x1 ((ord2.perm kvs).mem_iff.mpr hx1k)
        have := (hrec x1.2 (wf_of_mem_entries hwf.2 hx1k) _ _ hy1 hz).1.mpr rfl
        cases this
      · rw [he1, he2]
        exact sameUpToError_fail _ _ _ _
  | list xs =>
    simp only [Value.wf] at hwf
    rcases rangeList_inv rec1 _ _ _ o1 h1 with ⟨_, ha⟩ | ⟨e1, he1, x1, hx1, y1, hy1⟩
    · rcases rangeList_inv rec2 _ _ _ o2 h2 with ⟨_, hb⟩ | ⟨e2, he2, x2, hx2, y2, hy2⟩
      · rw [resolveChildren_list_ok ord1 rec1 ha] at h1
        rw [resolveChildren_list_ok ord2 rec2 hb] at h2
        have hsame : xs.map (valOf rec1) = xs.map (valOf rec2) := by
          apply List.map_congr_left
          intro x hx
          obtain ⟨y, hy⟩ := ha x hx
          obtain ⟨z, hz⟩ := hb x hx
          have := (hrec x (wf_of_mem_list hwf hx) _ _ hy hz).2 rfl
          simp only [Prod.mk.injEq, and_true] at this
          simp only [valOf_eq rec1 hy, valOf_eq rec2 hz, this]
        rw [hsame] at h1
        rw [h1] at h2
        cases h2
        exact sameUpToError_refl _
      · obtain ⟨z, hz⟩ := ha x2 hx2
        have := (hrec x2 (wf_of_mem_list hwf hx2) _ _ hz hy2).1.mp rfl
        cases this
    · rcases rangeList_inv rec2 _ _ _ o2 h2 with ⟨_, hb⟩ | ⟨e2, he2, x2, hx2, y2, hy2⟩
      · obtain ⟨z, hz⟩ := hb x1 hx1
        have := (hrec x1 (wf_of_mem_list hwf hx1) _ _ hy1 hz).1.mpr rfl
        cases this
      · rw [he1, he2]
        exact sameUpToError_fail _ _ _ _
  | null => cases h1; cases h2; exact sameUpToError_refl _
  | bool b => cases h1; cases h2; exact sameUpToError_refl _
  | int i => cases h1; cases h2; exact sameUpToError_refl _
  | float f => cases h1; cases h2; exact sameUpToError_refl _
  | str s => cases h1; cases h2; exact sameUpToError_refl _

theorem resolveAll_order_same_fuel (ord1 ord2 : RangeOrder) (ctx : Option Context)
    (resolver : Option Resolver)
    (hres : ∀ r, resolver = some r → ∀ x, x.wf = true → (r ctx x).1.wf = true) :
    ∀ (fuel : Nat) (v : Value) (depth : Int) (o1 o2 : Outcome), v.wf = true →
      resolveAll ord1 fuel ctx v resolver depth = some o1 →
      resolveAll ord2 fuel ctx v resolver depth = some o2 → SameUpToError o1 o2
  | 0, _, _, _, _, _, h, _ => by cases h
  | fuel + 1, v, depth, o1, o2, hwf, h1, h2 => by
    have ih := fun w (hw : w.wf = true) a b =>
      resolveAll_order_same_fuel ord1 ord2 ctx resolver hres fuel w (nextDepth depth) a b hw
    rw [resolveAll_succ] at h1 h2
    unfold resolveStep at h1 h2
    split at h1
    · rename_i hx
      rw [if_pos hx] at h2
      cases h1
      cases h2
      exact sameUpToError_refl _
    · rename_i hx
      rw [if_neg hx] at h2
      cases resolver with
      | none => exact resolveChildren_order ord1 ord2 _ _ v hwf ih o1 o2 h1 h2
      | some r =>
        simp only at h1 h2
        have hout := hres r rfl v hwf
        generalize r ctx v = res at h1 h2 hout
        rcases res with ⟨out, handled, err⟩
        cases handled with
        | true =>
          cases err with
          | some e =>
            cases h1
            cases h2
            exact sameUpToError_refl _
          | none => exact ih out hout o1 o2 h1 h2
        | false =>
          cases err with
          | some e =>
            cases h1
            cases h2
            exact sameUpToError_refl _
          | none => exact resolveChildren_order ord1 ord2 _ _ v hwf ih o1 o2 h1 h2

theorem refResolver_wf (ff : Nat → String) (values : List (String × String))
    (ctx : Option Context) (x : Value) (hx : x.wf = true) :
    (refResolver ff values ctx x).1.wf = true := by
  unfold refResolver
  split
  · split
    · exact hx
    · split
      · exact hx
      · split
        · exact hx
        · rfl
  · exact hx

theorem decodeSequence_eq_map (P : ScalarRules) :
    ∀ content : List Node, decodeSequence P content = content.map (decodeNode P)
  | [] => by simp [decodeSequence]
  | n :: rest => by simp [decodeSequence, decodeSequence_eq_map P rest]

/-! ## A resolver that never handles, and one that always handles -/

/-- A resolver that leaves every value unhandled, without error, walks like no
resolver at all, whatever replacement it returns. -/
theorem resolveAll_never_handled (ord : RangeOrder) (ctx : Option Context) (r : Resolver)
    (hr : ∀ x, ∃ o, r ctx x = (o, false, none)) :
    ∀ (fuel : Nat) (v : Value) (depth : Int),
      resolveAll ord fuel ctx v (some r) depth = resolveAll ord fuel ctx v none depth
  | 0, _, _ => rfl
  | fuel + 1, v, depth => by
    have hfun : (fun w => resolveAll ord fuel ctx w (some r) (nextDepth depth))
        = (fun w => resolveAll ord fuel ctx w none (nextDepth depth)) :=
      funext (fun w => resolveAll_never_handled ord ctx r hr fuel w (nextDepth depth))
    obtain ⟨o, ho⟩ := hr v
    rw [resolveAll_succ, resolveAll_succ]
    simp only [resolveStep, ho, hfun]

/-- With `0 < MaxDepth = d < maxInt` and a resolver that always answers `f x`,
handled, a call at depth `k <= d + 1` applies `f` once per remaining depth
`k, .., d`. -/
theorem resolveAll_always_handled (ord : RangeOrder) (d : Int) (r : Resolver)
    (f : Value → Value) (hr : ∀ x, r (some ⟨d⟩) x = (f x, true, none)) (hd : 0 < d)
    (hmax : d < maxInt) :
    ∀ (n fuel : Nat) (v : Value) (depth : Int), (d + 1 - depth).toNat = n → depth ≤ d + 1 →
      minInt ≤ depth → n + 1 ≤ fuel →
      resolveAllT ord fuel (some ⟨d⟩) v (some r) depth = (List.iterate f v n, some (f^[n] v, none))
  | 0, fuel, v, depth, hn, hle, _, hf => by
    obtain ⟨m, rfl⟩ : ∃ m, fuel = m + 1 := ⟨fuel - 1, by omega⟩
    have hx : depthExceeded (some ⟨d⟩) depth = true := by
      simp only [depthExceeded, hd, decide_True, Bool.true_and, decide_eq_true_eq]
      omega
    simp [resolveAllT, hx, List.iterate]
  | n + 1, fuel, v, depth, hn, hle, hmin, hf => by
    obtain ⟨m, rfl⟩ : ∃ m, fuel = m + 1 := ⟨fuel - 1, by omega⟩
    have hx : depthExceeded (some ⟨d⟩) depth = false := by
      simp only [depthExceeded, hd, decide_True, Bool.true_and, decide_eq_false_iff_not]
      omega
    have hnd : nextDepth depth = depth + 1 := nextDepth_eq hmin (by omega)
    have ih := resolveAll_always_handled ord d r f hr hd hmax n m (f v) (nextDepth depth)
      (by rw [hnd]; omega) (by rw [hnd]; omega) (minInt_le_nextDepth depth) (by omega)
    simp only [resolveAllT, hx, Bool.false_eq_true, if_false, hr, ih, List.iterate,
      Function.iterate_succ_apply]

/-! ## Claims -/

/-- C1: for every context (nil, `MaxDepth <= 0` or `MaxDepth > 0`) and every
value tree of scalars, slices and string-keyed maps, `ResolveAll(ctx, v, nil)`
returns, as soon as the call stack may be one deeper than the tree is high, the
pair of a tree equal to `v` and a nil error, whatever the order in which maps
are ranged over. -/
theorem ResolveAll_nil_resolver_identity (ord : RangeOrder) (fuel : Nat)
    (ctx : Option Context) (v : Value) (hwf : v.wf = true) (hfuel : v.height < fuel) :
    ResolveAll ord fuel ctx v none = some (v, none) :=
  resolveAll_nil_resolver ord fuel ctx v 0 hwf hfuel

theorem ResolveAll_nil_resolver_identity_witness :
    (Value.map [("A", .list [.int 1, .null]), ("Value", .map [("Ref", .str "Env")])]).wf = true ∧
    (Value.map [("A", .list [.int 1, .null]), ("Value", .map [("Ref", .str "Env")])]).height < 3 ∧
    ResolveAll RangeOrder.descending 3 (some ⟨1⟩)
      (.map [("A", .list [.int 1, .null]), ("Value", .map [("Ref", .str "Env")])]) none
      = some (.map [("A", .list [.int 1, .null]), ("Value", .map [("Ref", .str "Env")])], none) :=
  ⟨rfl, by decide, ResolveAll_nil_resolver_identity _ _ _ _ rfl (by decide)⟩

/-- C3: within the depth budget (or with unlimited depth), when the resolver
answers `handled = true` with replacement `out` and no error for the current
value, the result for that value is the result of resolving `out` at `depth+1`
(the `int` sum of Go, `nextDepth`, which is `depth + 1` below the largest `int`)
with the same resolver; and with an if-handler that picks the true branch
chained with a ref-handler mapping `Env` to `dev`, `ResolveAll` with
`MaxDepth = 10` turns `{"Value": {"Fn::If": ["Cond", {"Ref": "Env"}, "fallback"]}}`
into `{"Value": "dev"}`. -/
theorem resolveAll_handled_reresolved :
    (∀ (ord : RangeOrder) (fuel : Nat) (ctx : Option Context) (v out : Value) (r : Resolver)
      (depth : Int), depthExceeded ctx depth = false → r ctx v = (out, true, none) →
      resolveAll ord (fuel + 1) ctx v (some r) depth
        = resolveAll ord fuel ctx out (some r) (nextDepth depth)) ∧
    (∀ (ord : RangeOrder) (ff : Nat → String),
      ResolveAll ord 4 (some ⟨10⟩)
        (.map [("Value", .map [("Fn::If",
          .list [.str "Cond", .map [("Ref", .str "Env")], .str "fallback"])])])
        (some (chainResolver [ifResolver true, refResolver ff [("Env", "dev")]]))
        = some (.map [("Value", .str "dev")], none)) ∧
    (∀ depth : Int, minInt ≤ depth → depth < maxInt → nextDepth depth = depth + 1) := by
  refine ⟨?_, ?_, fun _ h1 h2 => nextDepth_eq h1 h2⟩
  · intro ord fuel ctx v out r depth hd hr
    simp [resolveAll, hd, hr]
  · intro ord ff
    simp [ResolveAll, resolveAll, depthExceeded, nextDepth, chainResolver, ifResolver,
      refResolver, mapGet, resolveChildren, visit_singleton, rangeMap, mapSet, fmtSprint,
      lookupString]

theorem resolveAll_handled_reresolved_witness :
    depthExceeded (some ⟨10⟩) 1 = false ∧
    ifResolver true (some ⟨10⟩)
      (.map [("Fn::If", .list [.str "Cond", .map [("Ref", .str "Env")], .str "fallback"])])
      = (.map [("Ref", .str "Env")], true, none) ∧
    resolveAll RangeOrder.ascending 3 (some ⟨10⟩)
      (.map [("Fn::If", .list [.str "Cond", .map [("Ref", .str "Env")], .str "fallback"])])
      (some (ifResolver true)) 1
      = resolveAll RangeOrder.ascending 2 (some ⟨10⟩) (.map [("Ref", .str "Env")])
          (some (ifResolver true)) (nextDepth 1) :=
  ⟨rfl, rfl, resolveAll_handled_reresolved.1 _ _ _ _ _ _ _ rfl rfl⟩

/-- C4: with `MaxDepth = d > 0`, `resolveAll` at any depth greater than `d`
returns the value itself with a nil error, whatever the resolver; so with
`MaxDepth = 1` and a resolver that does not handle the two enclosing maps,
`ResolveAll` on `{"outer": {"inner": X}}` returns `{"outer": {"inner": X}}` for
every `X`, also for `X = {"Ref": "Deep"}` under a ref-handler that knows `Deep`. -/
theorem resolveAll_beyond_MaxDepth :
    (∀ (ord : RangeOrder) (fuel : Nat) (d : Int) (v : Value) (resolver : Option Resolver)
      (depth : Int), 0 < d → d < depth →
      resolveAll ord (fuel + 1) (some ⟨d⟩) v resolver depth = some (v, none)) ∧
    (∀ (ord : RangeOrder) (fuel : Nat) (r : Resolver) (X o1 o2 : Value),
      r (some ⟨1⟩) (.map [("outer", .map [("inner", X)])]) = (o1, false, none) →
      r (some ⟨1⟩) (.map [("inner", X)]) = (o2, false, none) →
      ResolveAll ord (fuel + 3) (some ⟨1⟩) (.map [("outer", .map [("inner", X)])]) (some r)
        = some (.map [("outer", .map [("inner", X)])], none)) ∧
    (∀ (ord : RangeOrder) (ff : Nat → String),
      refResolver ff [("Deep", "done")] (some ⟨1⟩) (.map [("Ref", .str "Deep")])
        = (.str "done", true, none) ∧
      ResolveAll ord 3 (some ⟨1⟩) (.map [("outer", .map [("inner", .map [("Ref", .str "Deep")])])])
        (some (refResolver ff [("Deep", "done")]))
        = some (.map [("outer", .map [("inner", .map [("Ref", .str "Deep")])])], none)) := by
  refine ⟨?_, ?_, ?_⟩
  · intro ord fuel d v resolver depth hd hlt
    have hx : depthExceeded (some ⟨d⟩) depth = true := by
      simp [depthExceeded, hd, hlt]
    simp [resolveAll, hx]
  · intro ord fuel r X o1 o2 h1 h2
    simp [ResolveAll, resolveAll, depthExceeded, nextDepth, h1, h2, resolveChildren,
      visit_singleton, rangeMap, mapSet]
  · intro ord ff
    constructor
    · simp [refResolver, mapGet, fmtSprint, lookupString]
    · simp [ResolveAll, resolveAll, depthExceeded, nextDepth, refResolver, mapGet,
        resolveChildren, visit_singleton, rangeMap, mapSet]

theorem resolveAll_beyond_MaxDepth_witness :
    (0 : Int) < 1 ∧ (1 : Int) < 2 ∧
    resolveAll RangeOrder.ascending (0 + 1) (some ⟨1⟩) (.map [("Ref", .str "Deep")])
      (some (refResolver (fun _ => "") [("Deep", "done")])) 2
      = some (.map [("Ref", .str "Deep")], none) :=
  ⟨by decide, by decide, resolveAll_beyond_MaxDepth.1 _ _ _ _ _ _ (by decide) (by decide)⟩

/-- C7, the claim as stated fails: `MaxDepth = maxInt`, the largest `int`, is
positive, yet the guard `depth > MaxDepth` is then never true and `depth+1`
wraps around, so `ResolveAll` with the resolver that handles every value by
returning it does not return, however high the stack. -/
theorem ResolveAll_maxInt_never_returns :
    0 < maxInt ∧
    ¬ ∃ (fuel : Nat) (o : Outcome),
      ResolveAll RangeOrder.ascending fuel (some ⟨maxInt⟩) .null (some selfResolver) = some o := by
  refine ⟨by unfold maxInt; omega, ?_⟩
  rintro ⟨fuel, o, h⟩
  have hnone := (resolveAllT_maxInt_diverges RangeOrder.ascending selfResolver
    (fun x => ⟨x, rfl⟩) fuel .null 0 (by unfold maxInt; omega)).1
  rw [resolveAllT_snd] at hnone
  unfold ResolveAll at h
  rw [hnone] at h
  cases h

/-- C7, amended: for every positive `MaxDepth = d` below the largest `int`,
every resolver and every value, `ResolveAll` returns: a call at a depth `k`
returns on a stack of `d + 2 - k` frames (one frame when `k > d`), because every
recursive call is made at `depth+1` and a call at a depth greater than `d`
returns without recursing, on a stack of a single frame; this holds in
particular for the resolver that handles every value by returning it. -/
theorem ResolveAll_terminates :
    (∀ (ord : RangeOrder) (d : Int) (resolver : Option Resolver) (v : Value) (depth : Int)
      (fuel : Nat), 0 < d → d < maxInt → minInt ≤ depth → (d + 2 - depth).toNat ≤ fuel →
      1 ≤ fuel → ∃ o, resolveAll ord fuel (some ⟨d⟩) v resolver depth = some o) ∧
    (∀ (ord : RangeOrder) (d : Int) (resolver : Option Resolver) (v : Value), 0 < d →
      d < maxInt → ∃ o, ResolveAll ord (d.toNat + 2) (some ⟨d⟩) v resolver = some o) ∧
    (∀ (ord : RangeOrder) (d : Int) (resolver : Option Resolver) (v : Value) (depth : Int),
      0 < d → d < depth → resolveAll ord 1 (some ⟨d⟩) v resolver depth = some (v, none)) ∧
    (∀ (ord : RangeOrder) (v : Value),
      ResolveAll ord 5 (some ⟨3⟩) v (some selfResolver) = some (v, none)) := by
  refine ⟨?_, ?_, ?_, ?_⟩
  · intro ord d resolver v depth fuel hd hmax hmin hf h1
    exact Option.isSome_iff_exists.mp
      (resolveAll_isSome ord d hd hmax resolver fuel v depth hmin hf h1)
  · intro ord d resolver v hd hmax
    exact Option.isSome_iff_exists.mp
      (resolveAll_isSome ord d hd hmax resolver _ v 0 (by unfold minInt; omega) (by omega)
        (by omega))
  · intro ord d resolver v depth hd hlt
    have hx : depthExceeded (some ⟨d⟩) depth = true := by
      simp [depthExceeded, hd, hlt]
    simp [resolveAll, hx]
  · intro ord v
    simp [ResolveAll, resolveAll, depthExceeded, nextDepth, selfResolver]

theorem ResolveAll_terminates_witness :
    (0 : Int) < 2 ∧ (2 : Int) < maxInt ∧ minInt ≤ 1 ∧ ((2 : Int) + 2 - 1).toNat ≤ 3 ∧ 1 ≤ 3 ∧
    ∃ o, resolveAll RangeOrder.ascending 3 (some ⟨2⟩) (.map [("a", .list [.null])])
      (some selfResolver) 1 = some o :=
  ⟨by decide, by decide, by decide, by decide, by decide,
    ResolveAll_terminates.1 _ _ _ _ _ _ (by decide) (by decide) (by decide) (by decide)
      (by decide)⟩

/-- C8: when the context is nil or its `MaxDepth` is `<= 0` the depth guard is
never taken; `resolveAll` at any depth `k` returns what it returns at depth 0;
for a resolver that ignores the context, any two such contexts (nil,
`MaxDepth = 0`, a negative `MaxDepth`) give the same outcome; and
`ResolveAll(nil, {"Ref": "Env"}, r)` with `r` mapping `Env` to `dev` returns
`dev`. -/
theorem resolveAll_unlimited_depth :
    (∀ (ctx : Option Context) (k : Int), (∀ c, ctx = some c → c.MaxDepth ≤ 0) →
      depthExceeded ctx k = false) ∧
    (∀ (ord : RangeOrder) (fuel : Nat) (ctx : Option Context) (v : Value)
      (resolver : Option Resolver) (k : Int), (∀ c, ctx = some c → c.MaxDepth ≤ 0) →
      resolveAll ord fuel ctx v resolver k = resolveAll ord fuel ctx v resolver 0) ∧
    (∀ (ord : RangeOrder) (fuel : Nat) (ctx1 ctx2 : Option Context) (v : Value) (r : Resolver),
      (∀ c, ctx1 = some c → c.MaxDepth ≤ 0) → (∀ c, ctx2 = some c → c.MaxDepth ≤ 0) →
      (∀ c1 c2 x, r c1 x = r c2 x) →
      ResolveAll ord fuel ctx1 v (some r) = ResolveAll ord fuel ctx2 v (some r)) ∧
    (∀ (ord : RangeOrder) (ff : Nat → String),
      ResolveAll ord 2 none (.map [("Ref", .str "Env")]) (some (refResolver ff [("Env", "dev")]))
        = some (.str "dev", none)) := by
  refine ⟨?_, ?_, ?_, ?_⟩
  · intro ctx k h
    exact depthExceeded_unlimited h k
  · intro ord fuel ctx v resolver k h
    exact resolveAll_unlimited_congr ord fuel ctx ctx v resolver k 0 h h (fun _ _ _ => rfl)
  · intro ord fuel ctx1 ctx2 v r h1 h2 hr
    exact resolveAll_unlimited_congr ord fuel ctx1 ctx2 v (some r) 0 0 h1 h2
      (fun r2 h2 x => by cases h2; exact hr _ _ x)
  · intro ord ff
    simp [ResolveAll, resolveAll, depthExceeded, refResolver, mapGet, fmtSprint, lookupString,
      resolveChildren]

theorem resolveAll_unlimited_depth_witness :
    (∀ c, some (Context.mk (-3)) = some c → c.MaxDepth ≤ 0) ∧
    resolveAll RangeOrder.ascending 3 (some ⟨-3⟩) (.list [.map [("Ref", .str "Env")]])
      (some (refResolver (fun _ => "") [("Env", "dev")])) 7
      = resolveAll RangeOrder.ascending 3 (some ⟨-3⟩) (.list [.map [("Ref", .str "Env")]])
          (some (refResolver (fun _ => "") [("Env", "dev")])) 0 :=
  ⟨fun c h => by cases h; decide,
    resolveAll_unlimited_depth.2.1 _ _ _ _ _ _ (fun c h => by cases h; decide)⟩

/-- C5: a map `m` (unique keys) reached within the depth budget that the
resolver does not handle, or that is walked without a resolver, and whose
children all resolve without error, resolves to a map with the keys of `m` in
which every key holds the result of resolving its value in `m` at `depth+1`
(the `int` sum of Go, `nextDepth`, which is `depth + 1` below the largest `int`),
whatever the visiting order; and with a resolver that turns `{"Ref": "Env"}`
into `dev`, `ResolveAll` on `{"Value": {"Ref": "Env"}}` returns
`{"Value": "dev"}` under every context. -/
theorem resolveAll_map_children :
    (∀ (ord : RangeOrder) (fuel : Nat) (ctx : Option Context) (m : List (String × Value))
      (resolver : Option Resolver) (depth : Int), sortedKeys m = true →
      depthExceeded ctx depth = false →
      (∀ r, resolver = some r → ∃ o, r ctx (.map m) = (o, false, none)) →
      (∀ e ∈ m, ∃ x, resolveAll ord fuel ctx e.2 resolver (nextDepth depth) = some (x, none)) →
      ∃ out, resolveAll ord (fuel + 1) ctx (.map m) resolver depth = some (.map out, none) ∧
        out.map Prod.fst = m.map Prod.fst ∧
        List.Forall₂ (fun e f => f.1 = e.1 ∧
          resolveAll ord fuel ctx e.2 resolver (nextDepth depth) = some (f.2, none)) m out) ∧
    (∀ (ord : RangeOrder) (ff : Nat → String) (ctx : Option Context),
      ResolveAll ord 3 ctx (.map [("Value", .map [("Ref", .str "Env")])])
        (some (refResolver ff [("Env", "dev")]))
        = some (.map [("Value", .str "dev")], none)) ∧
    (∀ depth : Int, minInt ≤ depth → depth < maxInt → nextDepth depth = depth + 1) := by
  refine ⟨?_, ?_, fun _ h1 h2 => nextDepth_eq h1 h2⟩
  · intro ord fuel ctx m resolver depth hs hd hr hc
    refine ⟨m.map (resolvedEntry (fun v => resolveAll ord fuel ctx v resolver (nextDepth depth))),
      ?_, ?_, ?_⟩
    · rw [resolveAll_unhandled ord fuel ctx _ resolver depth hd hr]
      exact resolveChildren_map_ok ord _ ((sortedKeys_iff m).mp hs) hc
    · simp [resolvedEntry, Function.comp_def]
    · rw [List.forall₂_map_right_iff, List.forall₂_same]
      intro e he
      obtain ⟨x, hx⟩ := hc e he
      exact ⟨rfl, by rw [hx, resolvedEntry, valOf_eq _ hx]⟩
  · intro ord ff ctx
    have h2 : resolveAll ord 1 ctx (.str "dev") (some (refResolver ff [("Env", "dev")]))
        (nextDepth (nextDepth 0))
        = some (.str "dev", none) := by
      unfold resolveAll
      split
      · rfl
      · simp [refResolver, resolveChildren]
    have hn0 : nextDepth 0 = 1 := rfl
    simp only [ResolveAll, resolveAll, hn0, depthExceeded_zero, depthExceeded_one,
      Bool.false_eq_true, if_false] at h2 ⊢
    simp [refResolver, mapGet, fmtSprint, lookupString, resolveChildren, visit_singleton,
      rangeMap, mapSet, h2]

theorem resolveAll_map_children_witness :
    sortedKeys [("A", .str "x"), ("Value", .map [("Ref", .str "Env")])] = true ∧
    depthExceeded (some ⟨5⟩) 2 = false ∧
    ∃ out, resolveAll RangeOrder.descending (2 + 1) (some ⟨5⟩)
        (.map [("A", .str "x"), ("Value", .map [("Ref", .str "Env")])])
        (some (refResolver (fun _ => "") [("Env", "dev")])) 2 = some (.map out, none) ∧
      out.map Prod.fst = [("A", Value.str "x"), ("Value", .map [("Ref", .str "Env")])].map Prod.fst ∧
      List.Forall₂ (fun e f => f.1 = e.1 ∧
        resolveAll RangeOrder.descending 2 (some ⟨5⟩) e.2
          (some (refResolver (fun _ => "") [("Env", "dev")])) (nextDepth 2) = some (f.2, none))
        [("A", .str "x"), ("Value", .map [("Ref", .str "Env")])] out :=
  ⟨rfl, rfl, resolveAll_map_children.1 _ _ _ _ _ _ rfl rfl
    (fun r hr => by cases hr; exact ⟨_, rfl⟩)
    (fun e he => by
      simp only [List.mem_cons, List.mem_singleton, List.not_mem_nil, or_false] at he
      rcases he with rfl | rfl
      · exact ⟨_, rfl⟩
      · exact ⟨_, rfl⟩)⟩

/-- C6: a slice `l` reached within the depth budget that the resolver does not
handle, or that is walked without a resolver: if every element resolves without
error the result is a slice of the same length whose i-th element is the result
of resolving `l[i]` at `depth+1` (the `int` sum of Go, `nextDepth`, which is
`depth + 1` below the largest `int`); if some element fails, the error returned is
that of the first failing element and the value is nil; and with a resolver
mapping `{"Ref": "Env"}` to `dev`, `ResolveAll(nil, [{"Ref": "Env"}, "keep"])`
returns `["dev", "keep"]`. -/
theorem resolveAll_list_children :
    (∀ (ord : RangeOrder) (fuel : Nat) (ctx : Option Context) (l : List Value)
      (resolver : Option Resolver) (depth : Int), depthExceeded ctx depth = false →
      (∀ r, resolver = some r → ∃ o, r ctx (.list l) = (o, false, none)) →
      ((∀ x ∈ l, ∃ y, resolveAll ord fuel ctx x resolver (nextDepth depth) = some (y, none)) →
        ∃ out, resolveAll ord (fuel + 1) ctx (.list l) resolver depth = some (.list out, none) ∧
          out.length = l.length ∧
          List.Forall₂ (fun x y =>
            resolveAll ord fuel ctx x resolver (nextDepth depth) = some (y, none)) l out) ∧
      (∀ (pre post : List Value) (x o : Value) (err : Error), l = pre ++ x :: post →
        (∀ y ∈ pre, ∃ z, resolveAll ord fuel ctx y resolver (nextDepth depth) = some (z, none)) →
        resolveAll ord fuel ctx x resolver (nextDepth depth) = some (o, some err) →
        resolveAll ord (fuel + 1) ctx (.list l) resolver depth = some (.null, some err))) ∧
    (∀ (ord : RangeOrder) (ff : Nat → String),
      ResolveAll ord 3 none (.list [.map [("Ref", .str "Env")], .str "keep"])
        (some (refResolver ff [("Env", "dev")]))
        = some (.list [.str "dev", .str "keep"], none)) ∧
    (∀ depth : Int, minInt ≤ depth → depth < maxInt → nextDepth depth = depth + 1) := by
  refine ⟨?_, ?_, fun _ h1 h2 => nextDepth_eq h1 h2⟩
  · intro ord fuel ctx l resolver depth hd hr
    have hunf := resolveAll_unhandled ord fuel ctx (.list l) resolver depth hd hr
    constructor
    · intro hc
      refine ⟨l.map (valOf (fun v => resolveAll ord fuel ctx v resolver (nextDepth depth))),
        ?_, ?_, ?_⟩
      · rw [hunf, resolveChildren_list_ok ord _ hc]
      · simp
      · rw [List.forall₂_map_right_iff, List.forall₂_same]
        intro x hx
        obtain ⟨y, hy⟩ := hc x hx
        rw [hy, valOf_eq _ hy]
    · intro pre post x o err hl hpre hx
      rw [hunf, hl]
      exact rangeList_err _ pre 0 _ x post o err hpre hx
  · intro ord ff
    simp [ResolveAll, resolveAll, depthExceeded, refResolver, mapGet, fmtSprint, lookupString,
      resolveChildren, rangeList]

theorem resolveAll_list_children_witness :
    depthExceeded none 0 = false ∧
    resolveAll RangeOrder.ascending (1 + 1) none
      (.list [.str "a", .str "boom", .str "bang"])
      (some (fun _ v => match v with
        | .str "boom" => (.null, false, some "first")
        | .str "bang" => (.null, false, some "second")
        | _ => (v, false, none))) 0 = some (.null, some "first") :=
  ⟨rfl, ((resolveAll_list_children.1 RangeOrder.ascending 1 none
      [.str "a", .str "boom", .str "bang"]
      (some (fun _ v => match v with
        | .str "boom" => (.null, false, some "first")
        | .str "bang" => (.null, false, some "second")
        | _ => (v, false, none))) 0 rfl
      (fun r hr => by cases hr; exact ⟨_, rfl⟩)).2
      [.str "a"] [.str "bang"] (.str "boom") .null "first" rfl
      (fun y hy => by
        simp only [List.mem_singleton] at hy
        subst hy
        exact ⟨_, rfl⟩)
      rfl)⟩

/-- C2: `resolveAll` (in particular `ResolveAll`, at depth 0) returns the
error `e` with a nil value exactly when some invocation of the resolver made
during the walk returned `e`: an invocation that returns an error makes the walk
return that very error, whatever the stack, and is the last invocation made; an
error returned is the error of a recorded invocation and comes with a nil value;
a resolver that never returns an error, or no resolver, never makes the walk
fail; and an error returned for the current value is returned at once, whatever
the handled flag and replacement that come with it. The invocations made during
the walk are those recorded by `resolveAllT`, whose outcome is the outcome of
`resolveAll`. -/
theorem resolveAll_error_iff_resolver_error :
    (∀ (ord : RangeOrder) (fuel : Nat) (ctx : Option Context) (v : Value)
      (resolver : Option Resolver) (depth : Int),
      (resolveAllT ord fuel ctx v resolver depth).2 = resolveAll ord fuel ctx v resolver depth ∧
      (∀ e, (∃ x ∈ (resolveAllT ord fuel ctx v resolver depth).1,
          resolverErr resolver ctx x = some e) ↔
        resolveAll ord fuel ctx v resolver depth = some (.null, some e)) ∧
      (∀ o e, resolveAll ord fuel ctx v resolver depth = some (o, some e) →
        o = .null ∧ ∃ x ∈ (resolveAllT ord fuel ctx v resolver depth).1,
          resolverErr resolver ctx x = some e) ∧
      (∀ x ∈ (resolveAllT ord fuel ctx v resolver depth).1.dropLast,
        resolverErr resolver ctx x = none) ∧
      ((∀ x, resolverErr resolver ctx x = none) →
        ∀ o, resolveAll ord fuel ctx v resolver depth = some o → o.2 = none)) ∧
    (∀ (ord : RangeOrder) (fuel : Nat) (ctx : Option Context) (v : Value) (r : Resolver)
      (depth : Int) (out : Value) (handled : Bool) (e : Error),
      depthExceeded ctx depth = false → r ctx v = (out, handled, some e) →
      resolveAll ord (fuel + 1) ctx v (some r) depth = some (.null, some e) ∧
      (resolveAllT ord (fuel + 1) ctx v (some r) depth).1 = [v]) := by
  constructor
  · intro ord fuel ctx v resolver depth
    have hT := resolveAllT_snd ord fuel ctx v resolver depth
    obtain ⟨ha, hb, hc⟩ := resolveAllT_traceOk ord fuel ctx v resolver depth
    rw [hT] at ha hb
    refine ⟨hT, ?_, ?_, hc, ?_⟩
    · intro e
      constructor
      · rintro ⟨x, hx, hxe⟩
        exact ha x hx e hxe
      · intro h
        exact hb .null e h
    · intro o e h
      obtain ⟨x, hx, hxe⟩ := hb o e h
      have h2 := ha x hx e hxe
      rw [h] at h2
      simp only [Option.some.injEq, Prod.mk.injEq, and_true] at h2
      exact ⟨h2, x, hx, hxe⟩
    · intro hnever o h
      cases ho : o.2 with
      | none => rfl
      | some e =>
        obtain ⟨x, _, hxe⟩ := hb o.1 e (by rw [h, ← ho])
        rw [hnever x] at hxe
        cases hxe
  · intro ord fuel ctx v r depth out handled e hd hv
    constructor
    · rw [resolveAll_succ]
      simp only [resolveStep, hd, Bool.false_eq_true, if_false, hv]
    · cases handled <;> simp only [resolveAllT, hd, Bool.false_eq_true, if_false, hv]

theorem resolveAll_error_iff_resolver_error_witness :
    depthExceeded (some ⟨10⟩) 0 = false ∧
    chainResolver [errResolver "boom"] (some ⟨10⟩) (.map [("Ref", .str "fail")])
      = (.null, true, some "boom") ∧
    resolveAll RangeOrder.ascending (0 + 1) (some ⟨10⟩) (.map [("Ref", .str "fail")])
      (some (chainResolver [errResolver "boom"])) 0 = some (.null, some "boom") ∧
    resolveAll RangeOrder.ascending 2 none (.list [.str "ok", .map [("Ref", .str "fail")]])
      (some (fun ctx x => match x with
        | .map _ => errResolver "boom" ctx x
        | _ => (x, false, none))) 0 = some (.null, some "boom") :=
  ⟨rfl, rfl,
    (resolveAll_error_iff_resolver_error.2 RangeOrder.ascending 0 (some ⟨10⟩)
      (.map [("Ref", .str "fail")]) (chainResolver [errResolver "boom"]) 0 .null true "boom"
      rfl rfl).1,
    ((resolveAll_error_iff_resolver_error.1 RangeOrder.ascending 2 none
      (.list [.str "ok", .map [("Ref", .str "fail")]])
      (some (fun ctx x => match x with
        | .map _ => errResolver "boom" ctx x
        | _ => (x, false, none))) 0).2.1 "boom").mp
      ⟨.map [("Ref", .str "fail")],
        List.mem_cons_of_mem _ (List.mem_cons_of_mem _ (List.mem_cons_self _ _)), rfl⟩⟩

/-- C9, the claim as stated fails: on the two-entry map `{"a": "x", "b": "y"}`
and the pure resolver that fails on a string with that string as its error,
visiting `a` first returns the error `x` and visiting `b` first returns the
error `y`. -/
theorem ResolveAll_error_depends_on_order :
    ResolveAll RangeOrder.ascending 2 none (.map [("a", .str "x"), ("b", .str "y")])
      (some failOnString) = some (.null, some "x") ∧
    ResolveAll RangeOrder.descending 2 none (.map [("a", .str "x"), ("b", .str "y")])
      (some failOnString) = some (.null, some "y") ∧
    ResolveAll RangeOrder.ascending 2 none (.map [("a", .str "x"), ("b", .str "y")])
      (some failOnString)
      ≠ ResolveAll RangeOrder.descending 2 none (.map [("a", .str "x"), ("b", .str "y")])
          (some failOnString) := by
  refine ⟨rfl, rfl, ?_⟩
  intro h
  have h2 : (some (Value.null, some "x") : Option Outcome) = some (Value.null, some "y") := h
  simp at h2

/-- C9, amended: for a pure resolver that returns trees of maps, slices and
scalars, and an input that is such a tree, two walks that visit map entries in
different orders and both return either both fail or both succeed, and when they
succeed they return the same tree. Which error a failing walk returns is not
determined. -/
theorem ResolveAll_order_independent (ord1 ord2 : RangeOrder) (fuel1 fuel2 : Nat)
    (ctx : Option Context) (v : Value) (resolver : Option Resolver) (o1 o2 : Outcome)
    (hwf : v.wf = true)
    (hres : ∀ r, resolver = some r → ∀ x, x.wf = true → (r ctx x).1.wf = true)
    (h1 : ResolveAll ord1 fuel1 ctx v resolver = some o1)
    (h2 : ResolveAll ord2 fuel2 ctx v resolver = some o2) :
    (o1.2 = none ↔ o2.2 = none) ∧ (o1.2 = none → o1 = o2) := by
  have g1 := resolveAll_mono ord1 ctx resolver v 0 o1 fuel1 h1 (max fuel1 fuel2)
    (Nat.le_max_left _ _)
  have g2 := resolveAll_mono ord2 ctx resolver v 0 o2 fuel2 h2 (max fuel1 fuel2)
    (Nat.le_max_right _ _)
  exact resolveAll_order_same_fuel ord1 ord2 ctx resolver hres _ v 0 o1 o2 hwf g1 g2

theorem ResolveAll_order_independent_witness :
    (Value.map [("a", .map [("Ref", .str "Env")]), ("b", .list [.str "y"])]).wf = true ∧
    ResolveAll RangeOrder.ascending 3 (some ⟨4⟩)
      (.map [("a", .map [("Ref", .str "Env")]), ("b", .list [.str "y"])])
      (some (refResolver (fun _ => "") [("Env", "dev")]))
      = some (.map [("a", .str "dev"), ("b", .list [.str "y"])], none) ∧
    ResolveAll RangeOrder.descending 5 (some ⟨4⟩)
      (.map [("a", .map [("Ref", .str "Env")]), ("b", .list [.str "y"])])
      (some (refResolver (fun _ => "") [("Env", "dev")]))
      = some (.map [("a", .str "dev"), ("b", .list [.str "y"])], none) ∧
    (((Value.map [("a", .str "dev"), ("b", .list [.str "y"])], none) : Outcome).2 = none ↔
      ((Value.map [("a", .str "dev"), ("b", .list [.str "y"])], none) : Outcome).2 = none) :=
  ⟨rfl, rfl, rfl,
    (ResolveAll_order_independent RangeOrder.ascending RangeOrder.descending 3 5 (some ⟨4⟩)
      (.map [("a", .map [("Ref", .str "Env")]), ("b", .list [.str "y"])])
      (some (refResolver (fun _ => "") [("Env", "dev")])) _ _ rfl
      (fun r hr x hx => by cases hr; exact refResolver_wf _ _ _ x hx) rfl rfl).1⟩

/-- C10: every shorthand tag decodes to a map with the single entry
`canonical key -> decoded node`, whatever the shape of the tagged node: a scalar
gives its text, a sequence the list of its decoded elements, a mapping the map
of its decoded entries; the canonical key is `Ref` for `!Ref`, `Condition` for
`!Condition` and `Fn::` followed by the tag name for the eleven other tags;
`!If [Cond, yes, no]` decodes to `{"Fn::If": ["Cond", "yes", "no"]}` and
`!Condition MyCond` to `{"Condition": "MyCond"}`. -/
theorem decodeNode_shorthand :
    (∀ p ∈ intrinsicTags, ∀ (P : ScalarRules) (text : String) (content : List Node),
      decodeNode P (.mk .scalar p.1 text content) = .map [(p.2, .str text)] ∧
      decodeNode P (.mk .sequence p.1 text content)
        = .map [(p.2, .list (content.map (decodeNode P)))] ∧
      decodeNode P (.mk .mapping p.1 text content)
        = .map [(p.2, .map (decodeMapping P content []))]) ∧
    (lookupString intrinsicTags "!Ref" = some "Ref" ∧
      lookupString intrinsicTags "!Condition" = some "Condition" ∧
      ∀ name ∈ ["Sub", "GetAtt", "ImportValue", "Join", "Equals", "And", "Or", "Not",
          "Select", "Split", "If"],
        lookupString intrinsicTags ("!" ++ name) = some ("Fn::" ++ name)) ∧
    (∀ P : ScalarRules,
      decodeNode P (.mk .sequence "!If" "" [.mk .scalar "!!str" "Cond" [],
        .mk .scalar "!!str" "yes" [], .mk .scalar "!!str" "no" []])
        = .map [("Fn::If", .list [.str "Cond", .str "yes", .str "no"])] ∧
      decodeNode P (.mk .scalar "!Condition" "MyCond" []) = .map [("Condition", .str "MyCond")] ∧
      decodeNode P (.mk .mapping "!Sub" "" [.mk .scalar "!!str" "Name" [],
        .mk .scalar "!!str" "world" []]) = .map [("Fn::Sub", .map [("Name", .str "world")])]) := by
  refine ⟨?_, ⟨rfl, rfl, ?_⟩, ?_⟩
  · intro p hp P text content
    simp only [intrinsicTags, List.mem_cons, List.mem_singleton, List.not_mem_nil,
      or_false] at hp
    rw [← decodeSequence_eq_map]
    rcases hp with rfl | rfl | rfl | rfl | rfl | rfl | rfl | rfl | rfl | rfl | rfl | rfl | rfl <;>
      exact ⟨rfl, rfl, rfl⟩
  · intro name hn
    simp only [List.mem_cons, List.mem_singleton, List.not_mem_nil, or_false] at hn
    rcases hn with rfl | rfl | rfl | rfl | rfl | rfl | rfl | rfl | rfl | rfl | rfl <;> rfl
  · intro P
    exact ⟨rfl, rfl, rfl⟩

theorem decodeNode_shorthand_witness :
    ("!Join", "Fn::Join") ∈ intrinsicTags ∧
    decodeNode ⟨fun _ => none, fun _ => none, fun _ => none, fun _ => ""⟩
      (.mk .sequence "!Join" "" [.mk .scalar "!!str" ":" [],
        .mk .sequence "!!seq" "" [.mk .scalar "!Ref" "A" [], .mk .scalar "!!str" "b" []]])
      = .map [("Fn::Join", .list [.str ":", .list [.map [("Ref", .str "A")], .str "b"]])] :=
  ⟨by simp [intrinsicTags],
    ((decodeNode_shorthand.1 ("!Join", "Fn::Join") (by simp [intrinsicTags])
      ⟨fun _ => none, fun _ => none, fun _ => none, fun _ => ""⟩ ""
      [.mk .scalar "!!str" ":" [],
        .mk .sequence "!!seq" "" [.mk .scalar "!Ref" "A" [], .mk .scalar "!!str" "b" []]]).2.1).trans
      rfl⟩

/-- C14: for every context, every value tree and every resolver that answers
`handled = false` without error on every value, whatever replacement it returns
alongside, the walk is the walk made without a resolver, and so `ResolveAll`
returns a tree equal to the input: the replacement of an unhandled call is
ignored. -/
theorem ResolveAll_never_handled_identity :
    (∀ (ord : RangeOrder) (fuel : Nat) (ctx : Option Context) (v : Value) (r : Resolver),
      (∀ x, ∃ o, r ctx x = (o, false, none)) →
      ResolveAll ord fuel ctx v (some r) = ResolveAll ord fuel ctx v none) ∧
    (∀ (ord : RangeOrder) (fuel : Nat) (ctx : Option Context) (v : Value) (r : Resolver),
      (∀ x, ∃ o, r ctx x = (o, false, none)) → v.wf = true → v.height < fuel →
      ResolveAll ord fuel ctx v (some r) = some (v, none)) := by
  constructor
  · intro ord fuel ctx v r hr
    exact resolveAll_never_handled ord ctx r hr fuel v 0
  · intro ord fuel ctx v r hr hwf hfuel
    unfold ResolveAll
    rw [resolveAll_never_handled ord ctx r hr fuel v 0]
    exact resolveAll_nil_resolver ord fuel ctx v 0 hwf hfuel

theorem ResolveAll_never_handled_identity_witness :
    (∀ x, ∃ o, (fun (_ : Option Context) (_ : Value) =>
      ((Value.str "ignored", false, none) : Value × Bool × Option Error)) (some ⟨2⟩) x
        = (o, false, none)) ∧
    (Value.map [("a", .list [.map [("Ref", .str "Env")]]), ("b", .int 3)]).wf = true ∧
    (Value.map [("a", .list [.map [("Ref", .str "Env")]]), ("b", .int 3)]).height < 4 ∧
    ResolveAll RangeOrder.descending 4 (some ⟨2⟩)
      (.map [("a", .list [.map [("Ref", .str "Env")]]), ("b", .int 3)])
      (some (fun _ _ => (.str "ignored", false, none)))
      = some (.map [("a", .list [.map [("Ref", .str "Env")]]), ("b", .int 3)], none) :=
  ⟨fun _ => ⟨_, rfl⟩, rfl, by decide,
    ResolveAll_never_handled_identity.2 RangeOrder.descending 4 (some ⟨2⟩) _
      (fun _ _ => (.str "ignored", false, none)) (fun _ => ⟨_, rfl⟩) rfl (by decide)⟩

/-- C15, the claim as stated fails: at `MaxDepth = maxInt`, the largest `int`,
the resolver that handles every value by returning it (so `f` is the identity)
is consulted once per stack frame, on every stack, and `ResolveAll` returns `f`
applied `d + 1` times to the value on no stack. -/
theorem ResolveAll_always_handled_maxInt :
    0 < maxInt ∧
    (∀ x, selfResolver (some ⟨maxInt⟩) x = (id x, true, none)) ∧
    (¬ ∃ fuel : Nat,
      ResolveAll RangeOrder.ascending fuel (some ⟨maxInt⟩) .null (some selfResolver)
        = some (id^[maxInt.toNat + 1] .null, none)) ∧
    (∀ fuel : Nat,
      (resolveAllT RangeOrder.ascending fuel (some ⟨maxInt⟩) .null (some selfResolver) 0).1.length
        = fuel) := by
  have h := fun fuel => resolveAllT_maxInt_diverges RangeOrder.ascending selfResolver
    (fun x => ⟨x, rfl⟩) fuel .null 0 (by unfold maxInt; omega)
  refine ⟨by unfold maxInt; omega, fun _ => rfl, ?_, fun fuel => (h fuel).2⟩
  rintro ⟨fuel, hf⟩
  have hnone := (h fuel).1
  rw [resolveAllT_snd] at hnone
  unfold ResolveAll at hf
  rw [hnone] at hf
  cases hf

/-- C15, amended: with `0 < MaxDepth = d` below the largest `int` and a
resolver that always answers `handled = true` with replacement `f(v)` and no
error, `ResolveAll` consults the resolver on exactly the `d + 1` values
`v, f(v), .., f^d(v)` (depths `0..d`) and returns `f` applied `d + 1` times to
`v`, on any stack of at least `d + 2` frames. -/
theorem ResolveAll_always_handled_iterates (ord : RangeOrder) (d : Int) (r : Resolver)
    (f : Value → Value) (v : Value) (fuel : Nat) (hd : 0 < d) (hmax : d < maxInt)
    (hr : ∀ x, r (some ⟨d⟩) x = (f x, true, none)) (hfuel : d.toNat + 2 ≤ fuel) :
    ResolveAll ord fuel (some ⟨d⟩) v (some r) = some (f^[d.toNat + 1] v, none) ∧
    (resolveAllT ord fuel (some ⟨d⟩) v (some r) 0).1 = List.iterate f v (d.toNat + 1) := by
  have h := resolveAll_always_handled ord d r f hr hd hmax (d.toNat + 1) fuel v 0 (by omega)
    (by omega) (by unfold minInt; omega) (by omega)
  constructor
  · unfold ResolveAll
    rw [← resolveAllT_snd, h]
  · rw [h]

theorem ResolveAll_always_handled_iterates_witness :
    (0 : Int) < 2 ∧ (2 : Int) < maxInt ∧ (2 : Int).toNat + 2 ≤ 4 ∧
    ResolveAll RangeOrder.ascending 4 (some ⟨2⟩) (.list [])
      (some (fun _ x => (.list [x], true, none)))
      = some (.list [.list [.list [.list []]]], none) :=
  ⟨by decide, by decide, by decide,
    (ResolveAll_always_handled_iterates RangeOrder.ascending 2
      (fun _ x => (.list [x], true, none)) (fun x => .list [x]) (.list []) 4 (by decide)
      (by decide) (fun _ => rfl) (by decide)).1⟩

/-- C16: `chainResolver.Resolve` consults its members in order and stops at the
first one that returns an error or reports handled: after members that all
answer unhandled without error, a member returning an error makes the chain
return that error with `handled = true` and a nil value, and a member reporting
handled makes it return that member's replacement with `handled = true`,
whatever the later members are; if no member handles, in particular for the
empty chain, it returns the original value with `handled = false` and no
error. -/
theorem chainResolver_first_decides :
    (∀ (pre post : List Resolver) (r : Resolver) (ctx : Option Context) (v o : Value)
      (handled : Bool) (e : Error), (∀ p ∈ pre, ∃ x, p ctx v = (x, false, none)) →
      r ctx v = (o, handled, some e) →
      chainResolver (pre ++ r :: post) ctx v = (.null, true, some e)) ∧
    (∀ (pre post : List Resolver) (r : Resolver) (ctx : Option Context) (v o : Value),
      (∀ p ∈ pre, ∃ x, p ctx v = (x, false, none)) → r ctx v = (o, true, none) →
      chainResolver (pre ++ r :: post) ctx v = (o, true, none)) ∧
    (∀ (c : List Resolver) (ctx : Option Context) (v : Value),
      (∀ p ∈ c, ∃ x, p ctx v = (x, false, none)) → chainResolver c ctx v = (v, false, none)) ∧
    (∀ (ctx : Option Context) (v : Value), chainResolver [] ctx v = (v, false, none)) := by
  have hskip : ∀ (pre rest : List Resolver) (ctx : Option Context) (v : Value),
      (∀ p ∈ pre, ∃ x, p ctx v = (x, false, none)) →
      chainResolver (pre ++ rest) ctx v = chainResolver rest ctx v := by
    intro pre rest ctx v
    induction pre with
    | nil => intro _; rfl
    | cons p ps ih =>
      intro h
      obtain ⟨x, hx⟩ := h p (List.mem_cons_self _ _)
      simp only [List.cons_append, chainResolver, hx]
      exact ih (fun q hq => h q (List.mem_cons_of_mem _ hq))
  refine ⟨?_, ?_, ?_, fun _ _ => rfl⟩
  · intro pre post r ctx v o handled e hpre hr
    rw [hskip pre _ ctx v hpre]
    cases handled <;> simp only [chainResolver, hr]
  · intro pre post r ctx v o hpre hr
    rw [hskip pre _ ctx v hpre]
    simp only [chainResolver, hr]
  · intro c ctx v hc
    have := hskip c [] ctx v hc
    rw [List.append_nil] at this
    rw [this]
    rfl

theorem chainResolver_first_decides_witness :
    (∀ p ∈ [ifResolver true], ∃ x, p none (.map [("Ref", .str "Env")]) = (x, false, none)) ∧
    refResolver (fun _ => "") [("Env", "dev")] none (.map [("Ref", .str "Env")])
      = (.str "dev", true, none) ∧
    chainResolver ([ifResolver true] ++ refResolver (fun _ => "") [("Env", "dev")]
        :: [errResolver "late"]) none (.map [("Ref", .str "Env")]) = (.str "dev", true, none) :=
  ⟨fun p hp => by rw [List.mem_singleton.mp hp]; exact ⟨_, rfl⟩, rfl,
    chainResolver_first_decides.2.1 [ifResolver true] [errResolver "late"] _ none _ _
      (fun p hp => by rw [List.mem_singleton.mp hp]; exact ⟨_, rfl⟩) rfl⟩

/-- C17: `ResolveAll` is not idempotent: with unlimited depth and the reference
resolver with table `{Env -> dev, dev -> x}`, the tree `{"Ref": {"Ref": "Env"}}`
resolves to `{"Ref": "dev"}`, and resolving that result again gives `x`, a
different tree; the node `{"Ref": "dev"}` built from the resolved child was not
offered to the resolver again in the first walk. -/
theorem ResolveAll_not_idempotent :
    (∀ (ord : RangeOrder) (ff : Nat → String),
      ResolveAll ord 3 none (.map [("Ref", .map [("Ref", .str "Env")])])
        (some (refResolver ff [("Env", "dev"), ("dev", "x")]))
        = some (.map [("Ref", .str "dev")], none) ∧
      ResolveAll ord 3 none (.map [("Ref", .str "dev")])
        (some (refResolver ff [("Env", "dev"), ("dev", "x")])) = some (.str "x", none) ∧
      (resolveAllT ord 3 none (.map [("Ref", .map [("Ref", .str "Env")])])
        (some (refResolver ff [("Env", "dev"), ("dev", "x")])) 0).1
        = [.map [("Ref", .map [("Ref", .str "Env")])], .map [("Ref", .str "Env")], .str "dev"]) ∧
    (∃ (ord : RangeOrder) (r : Resolver) (v w : Value),
      ResolveAll ord 3 none v (some r) = some (w, none) ∧
      ResolveAll ord 3 none w (some r) ≠ some (w, none)) := by
  have h : ∀ (ord : RangeOrder) (ff : Nat → String),
      ResolveAll ord 3 none (.map [("Ref", .map [("Ref", .str "Env")])])
        (some (refResolver ff [("Env", "dev"), ("dev", "x")]))
        = some (.map [("Ref", .str "dev")], none) ∧
      ResolveAll ord 3 none (.map [("Ref", .str "dev")])
        (some (refResolver ff [("Env", "dev"), ("dev", "x")])) = some (.str "x", none) ∧
      (resolveAllT ord 3 none (.map [("Ref", .map [("Ref", .str "Env")])])
        (some (refResolver ff [("Env", "dev"), ("dev", "x")])) 0).1
        = [.map [("Ref", .map [("Ref", .str "Env")])], .map [("Ref", .str "Env")],
            .str "dev"] := by
    intro ord ff
    refine ⟨?_, ?_, ?_⟩
    · simp [ResolveAll, resolveAll, depthExceeded, refResolver, mapGet, fmtSprint,
        fmtSprintEntries, lookupString, resolveChildren, visit_singleton, rangeMap, mapSet]
    · simp [ResolveAll, resolveAll, depthExceeded, refResolver, mapGet, fmtSprint,
        lookupString, resolveChildren]
    · simp [resolveAllT, depthExceeded, refResolver, mapGet, fmtSprint,
        fmtSprintEntries, lookupString, resolveChildrenT, visit_singleton, rangeMapT, mapSet]
  refine ⟨h, RangeOrder.ascending, refResolver (fun _ => "") [("Env", "dev"), ("dev", "x")],
    .map [("Ref", .map [("Ref", .str "Env")])], .map [("Ref", .str "dev")], ?_, ?_⟩
  · exact (h _ _).1
  · rw [(h _ _).2.1]
    intro hc
    simp at hc

/-- C11: scalar decoding never fails, it is a total function whose result is
a scalar; an integer, float or boolean tag whose text does not parse gives the
raw text as a string; a tag that names no scalar type, such as a custom tag
outside the shorthand table, gives the raw text as a string, also through
`decodeNode`; so `!!int "nope"` and `!!bool "maybe"` give `"nope"` and
`"maybe"` under parsers that reject these texts, and `!Unknown "value"` gives
`"value"`. -/
theorem decodeScalar_falls_back :
    (∀ (P : ScalarRules) (tag text : String),
      decodeScalar P tag text = .str text ∨ decodeScalar P tag text = .null ∨
      (∃ i, decodeScalar P tag text = .int i) ∨ (∃ f, decodeScalar P tag text = .float f) ∨
      (∃ b, decodeScalar P tag text = .bool b)) ∧
    (∀ (P : ScalarRules) (text : String),
      (P.parseInt text = none → decodeScalar P "!!int" text = .str text) ∧
      (P.parseFloat text = none → decodeScalar P "!!float" text = .str text) ∧
      (P.parseBool text = none → decodeScalar P "!!bool" text = .str text)) ∧
    (∀ (P : ScalarRules) (tag text : String) (content : List Node),
      tag ≠ "!!int" → tag ≠ "!!float" → tag ≠ "!!bool" → tag ≠ "!!null" →
      decodeScalar P tag text = .str text ∧
      (lookupString intrinsicTags tag = none →
        decodeNode P (.mk .scalar tag text content) = .str text)) ∧
    (∀ P : ScalarRules,
      (P.parseInt "nope" = none → decodeScalar P "!!int" "nope" = .str "nope") ∧
      (P.parseFloat "nope" = none → decodeScalar P "!!float" "nope" = .str "nope") ∧
      (P.parseBool "maybe" = none → decodeScalar P "!!bool" "maybe" = .str "maybe") ∧
      decodeScalar P "!Unknown" "value" = .str "value" ∧
      decodeNode P (.mk .scalar "!Unknown" "value" []) = .str "value") := by
  have hparse : ∀ (P : ScalarRules) (text : String),
      (P.parseInt text = none → decodeScalar P "!!int" text = .str text) ∧
      (P.parseFloat text = none → decodeScalar P "!!float" text = .str text) ∧
      (P.parseBool text = none → decodeScalar P "!!bool" text = .str text) := by
    intro P text
    refine ⟨?_, ?_, ?_⟩ <;> intro h <;> simp [decodeScalar, h]
  refine ⟨?_, hparse, ?_, ?_⟩
  · intro P tag text
    unfold decodeScalar
    split
    · cases P.parseInt text with
      | none => exact Or.inl rfl
      | some i => exact Or.inr (Or.inr (Or.inl ⟨i, rfl⟩))
    · split
      · cases P.parseFloat text with
        | none => exact Or.inl rfl
        | some f => exact Or.inr (Or.inr (Or.inr (Or.inl ⟨f, rfl⟩)))
      · split
        · cases P.parseBool text with
          | none => exact Or.inl rfl
          | some b => exact Or.inr (Or.inr (Or.inr (Or.inr ⟨b, rfl⟩)))
        · split
          · exact Or.inr (Or.inl rfl)
          · exact Or.inl rfl
  · intro P tag text content h1 h2 h3 h4
    have hs : decodeScalar P tag text = .str text := by
      simp [decodeScalar, h1, h2, h3, h4]
    refine ⟨hs, ?_⟩
    intro hl
    simp only [decodeNode, hl, hs]
  · intro P
    exact ⟨(hparse P "nope").1, (hparse P "nope").2.1, (hparse P "maybe").2.2, rfl, rfl⟩

theorem decodeScalar_falls_back_witness :
    (ScalarRules.mk (fun s => if s = "123" then some 123 else none) (fun _ => none)
      (fun s => if s = "true" then some true else none) (fun _ => "")).parseInt "nope" = none ∧
    decodeScalar (ScalarRules.mk (fun s => if s = "123" then some 123 else none) (fun _ => none)
      (fun s => if s = "true" then some true else none) (fun _ => "")) "!!int" "nope"
      = .str "nope" :=
  ⟨rfl, (decodeScalar_falls_back.2.1 _ "nope").1 rfl⟩

/-- C12: `DecodeYAML` returns an error and a nil tree when the markup is
empty, when the markup parser rejects it (then the parser's error), and when the
document root is not a mapping; when it returns no error the result is a
mapping. So it fails on `""`, on `"[:"` for a parser that rejects it, and on
`"- a\n- b"` for a parser that reads it as a sequence. -/
theorem DecodeYAML_errors :
    (∀ (P : ScalarRules) (parse : MarkupParser), (DecodeYAML P parse "").1 = .null ∧
      (DecodeYAML P parse "").2 ≠ none) ∧
    (∀ (P : ScalarRules) (parse : MarkupParser) (content : String) (err : Error),
      parse content = .error err → (DecodeYAML P parse content).1 = .null ∧
      (DecodeYAML P parse content).2 ≠ none) ∧
    (∀ (P : ScalarRules) (parse : MarkupParser) (content : String) (doc : Node),
      parse content = .ok doc →
      (∀ tag value children, documentRoot doc ≠ some (.mk .mapping tag value children)) →
      (DecodeYAML P parse content).1 = .null ∧ (DecodeYAML P parse content).2 ≠ none) ∧
    (∀ (P : ScalarRules) (parse : MarkupParser) (content : String),
      (DecodeYAML P parse content).2 = none →
      ∃ entries, (DecodeYAML P parse content).1 = .map entries) ∧
    (∀ (P : ScalarRules) (parse : MarkupParser) (err : Error), parse "[:" = .error err →
      DecodeYAML P parse "[:" = (.null, some err)) ∧
    (∀ (P : ScalarRules) (parse : MarkupParser),
      parse "- a\n- b" = .ok (.mk .document "" "" [.mk .sequence "!!seq" ""
        [.mk .scalar "!!str" "a" [], .mk .scalar "!!str" "b" []]]) →
      DecodeYAML P parse "- a\n- b" = (.null, some errRootNotMapping)) := by
  refine ⟨?_, ?_, ?_, ?_, ?_, ?_⟩
  · intro P parse
    simp [DecodeYAML]
  · intro P parse content err h
    unfold DecodeYAML
    split
    · simp
    · simp [h]
  · intro P parse content doc h hroot
    unfold DecodeYAML
    split
    · simp
    · simp only [h]
      split
      · simp
      · rename_i tag value children hr
        exact absurd hr (hroot tag value children)
      · simp
  · intro P parse content h
    by_cases hc : content = ""
    · simp [DecodeYAML, hc] at h
    · cases hp : parse content with
      | error err => simp [DecodeYAML, hc, hp] at h
      | ok doc =>
        cases hr : documentRoot doc with
        | none => simp [DecodeYAML, hc, hp, hr] at h
        | some root =>
          obtain ⟨kind, tag, value, children⟩ := root
          cases kind with
          | document => simp [DecodeYAML, hc, hp, hr] at h
          | sequence => simp [DecodeYAML, hc, hp, hr] at h
          | scalar => simp [DecodeYAML, hc, hp, hr] at h
          | mapping =>
            simp only [DecodeYAML, hc, hp, hr, if_false, decodeNode]
            split
            · exact ⟨_, rfl⟩
            · exact ⟨_, rfl⟩
  · intro P parse err h
    simp [DecodeYAML, h]
  · intro P parse h
    simp [DecodeYAML, h, documentRoot]

theorem DecodeYAML_errors_witness :
    (fun (s : String) => (if s = "[:" then Except.error "yaml: did not find expected node content"
      else Except.ok (Node.mk .document "" "" []) : Except Error Node)) "[:"
      = .error "yaml: did not find expected node content" ∧
    DecodeYAML ⟨fun _ => none, fun _ => none, fun _ => none, fun _ => ""⟩
      (fun s => if s = "[:" then .error "yaml: did not find expected node content"
        else .ok (.mk .document "" "" [])) "[:"
      = (.null, some "yaml: did not find expected node content") :=
  ⟨rfl, DecodeYAML_errors.2.2.2.2.1 _ _ _ rfl⟩

/-- C13: `Decode` resolves before it binds. With options that carry a
resolver, when `ResolveAll(opts.ResolverContext, input, opts.Resolver)` returns
a tree, the binder is run on exactly that tree, and when it returns an error,
`Decode` returns that error and leaves the target as it was; with nil options
or options without a resolver the binder is run on the input itself. On the
input `{"Name": {"Ref": "Env"}}` with a resolver mapping `Env` to `dev` the
binder receives `{"Name": "dev"}`. -/
theorem Decode_resolves_before_binding :
    (∀ (α : Type) (B : Binder α) (ord : RangeOrder) (fuel : Nat) (input : Value) (output : α)
      (o : DecodeOptions) (r : Resolver), o.Resolver = some r →
      (∀ value, ResolveAll ord fuel o.ResolverContext input (some r) = some (value, none) →
        Decode B ord fuel input output (some o)
          = some (match B.newDecoder o.WeaklyTyped output with
              | some err => (output, some err)
              | none => B.decode o.WeaklyTyped value output)) ∧
      (∀ x err, ResolveAll ord fuel o.ResolverContext input (some r) = some (x, some err) →
        Decode B ord fuel input output (some o) = some (output, some err))) ∧
    (∀ (α : Type) (B : Binder α) (ord : RangeOrder) (fuel : Nat) (input : Value) (output : α)
      (o : DecodeOptions), o.Resolver = none →
      Decode B ord fuel input output (some o)
        = some (match B.newDecoder o.WeaklyTyped output with
            | some err => (output, some err)
            | none => B.decode o.WeaklyTyped input output)) ∧
    (∀ (α : Type) (B : Binder α) (ord : RangeOrder) (fuel : Nat) (input : Value) (output : α),
      Decode B ord fuel input output none
        = some (match B.newDecoder true output with
            | some err => (output, some err)
            | none => B.decode true input output)) ∧
    (∀ (ord : RangeOrder) (ff : Nat → String),
      Decode recordingBinder ord 3 (.map [("Name", .map [("Ref", .str "Env")])]) none
        (some ⟨some (refResolver ff [("Env", "dev")]), none, false⟩)
        = some (some (false, .map [("Name", .str "dev")]), none)) := by
  refine ⟨?_, ?_, ?_, ?_⟩
  · intro α B ord fuel input output o r hr
    constructor
    · intro value hv
      simp only [Decode, hr, hv]
      cases B.newDecoder o.WeaklyTyped output <;> rfl
    · intro x err hv
      simp only [Decode, hr, hv]
  · intro α B ord fuel input output o hr
    simp only [Decode, hr]
    cases B.newDecoder o.WeaklyTyped output <;> rfl
  · intro α B ord fuel input output
    simp only [Decode]
    cases B.newDecoder true output <;> rfl
  · intro ord ff
    have h : ResolveAll ord 3 none (.map [("Name", .map [("Ref", .str "Env")])])
        (some (refResolver ff [("Env", "dev")]))
        = some (.map [("Name", .str "dev")], none) := by
      simp [ResolveAll, resolveAll, depthExceeded, refResolver, mapGet, fmtSprint, lookupString,
        resolveChildren, visit_singleton, rangeMap, mapSet]
    simp only [Decode, h, recordingBinder]

theorem Decode_resolves_before_binding_witness :
    (DecodeOptions.mk (some (errResolver "boom")) (some ⟨10⟩) true).Resolver
      = some (errResolver "boom") ∧
    ResolveAll RangeOrder.ascending 1 (some ⟨10⟩) (.map [("Ref", .str "fail")])
      (some (errResolver "boom")) = some (.null, some "boom") ∧
    Decode recordingBinder RangeOrder.ascending 1 (.map [("Ref", .str "fail")]) none
      (some ⟨some (errResolver "boom"), some ⟨10⟩, true⟩) = some (none, some "boom") :=
  ⟨rfl, rfl, (Decode_resolves_before_binding.1 _ recordingBinder RangeOrder.ascending 1
    (.map [("Ref", .str "fail")]) none ⟨some (errResolver "boom"), some ⟨10⟩, true⟩
    (errResolver "boom") rfl).2 .null "boom" rfl⟩

/-- C18: the weak-typing flag `Decode` hands to the binder is true exactly
when the options are nil or their `WeaklyTyped` is true: whenever the recording
binder was handed a flag, that flag is true if and only if the options are nil
or carry `WeaklyTyped = true`; nil options give weak typing, and options that
only set `Resolver` give strict typing. -/
theorem Decode_weaklyTyped_flag :
    (∀ (ord : RangeOrder) (fuel : Nat) (input : Value) (opts : Option DecodeOptions)
      (flag : Bool) (resolved : Value) (err : Option Error),
      Decode recordingBinder ord fuel input none opts = some (some (flag, resolved), err) →
      (flag = true ↔ opts = none ∨ ∃ o, opts = some o ∧ o.WeaklyTyped = true)) ∧
    (∀ (ord : RangeOrder) (fuel : Nat) (input : Value),
      Decode recordingBinder ord fuel input none none = some (some (true, input), none)) ∧
    (∀ (ord : RangeOrder) (ff : Nat → String),
      Decode recordingBinder ord 2 (.map [("Count", .str "123")]) none
        (some ⟨some (refResolver ff []), none, false⟩)
        = some (some (false, .map [("Count", .str "123")]), none)) ∧
    (∀ (ord : RangeOrder) (fuel : Nat) (input : Value),
      Decode recordingBinder ord fuel input none (some ⟨none, none, true⟩)
        = some (some (true, input), none) ∧
      Decode recordingBinder ord fuel input none (some ⟨none, none, false⟩)
        = some (some (false, input), none)) := by
  refine ⟨?_, ?_, ?_, ?_⟩
  · intro ord fuel input opts flag resolved err h
    cases opts with
    | none =>
      simp only [Decode, recordingBinder, Option.some.injEq, Prod.mk.injEq] at h
      simp [← h.1.1]
    | some o =>
      obtain ⟨res, rctx, wt⟩ := o
      cases res with
      | none =>
        simp only [Decode, recordingBinder, Option.some.injEq, Prod.mk.injEq] at h
        simp [← h.1.1]
      | some r =>
        simp only [Decode] at h
        rcases hres : ResolveAll ord fuel rctx input (some r) with _ | ⟨x, _ | e⟩
        · rw [hres] at h
          cases h
        · rw [hres] at h
          simp only [recordingBinder, Option.some.injEq, Prod.mk.injEq] at h
          simp [← h.1.1]
        · rw [hres] at h
          simp at h
  · intro ord fuel input
    rfl
  · intro ord ff
    have h : ResolveAll ord 2 none (.map [("Count", .str "123")]) (some (refResolver ff []))
        = some (.map [("Count", .str "123")], none) := by
      simp [ResolveAll, resolveAll, depthExceeded, refResolver, mapGet, lookupString,
        resolveChildren, visit_singleton, rangeMap, mapSet]
    simp only [Decode, h, recordingBinder]
  · intro ord fuel input
    exact ⟨rfl, rfl⟩

theorem Decode_weaklyTyped_flag_witness :
    Decode recordingBinder RangeOrder.ascending 0 (.str "x") none (some ⟨none, none, true⟩)
      = some (some (true, .str "x"), none) ∧
    (true = true ↔ (some (DecodeOptions.mk none none true) = none ∨
      ∃ o, some (DecodeOptions.mk none none true) = some o ∧ o.WeaklyTyped = true)) :=
  ⟨rfl, Decode_weaklyTyped_flag.1 RangeOrder.ascending 0 (.str "x")
    (some ⟨none, none, true⟩) true (.str "x") none rfl⟩

end SamParser
